import Mathlib

/-!
Verification of the GrammarPal engine (src/main.py) against its
natural-language specification.

The Python source is shallowly embedded: strings are Lean `String`
(a wrapper around `List Char`), Python floats are modelled as `Rat`,
Python dicts keyed by insertion order are modelled as association lists,
and the mutable application state (`GrammarPalApp`) becomes an explicit
state record transformed by pure step functions.  Character classes of
the Python regular expressions and of `str.lower`/`str.isdigit` are
modelled at ASCII granularity.
-/

namespace GrammarPal

/-- Characters counted as whitespace by the `\s` class of the Python
regular expressions in `GrammarEngine.normalize_text` and by `str.strip`
(ASCII fragment: space, tab, newline, vertical tab, form feed,
carriage return). -/
def isPySpace (c : Char) : Bool :=
  c.toNat = 32 || c.toNat = 9 || c.toNat = 10 || c.toNat = 11 || c.toNat = 12 || c.toNat = 13

/-- Characters counted as word characters by the `\w` class used in
`normalize_text` (ASCII fragment: digits 48-57, upper-case letters
65-90, lower-case letters 97-122, and the underscore 95). -/
def isWordChar (c : Char) : Bool :=
  (48 ≤ c.toNat && c.toNat ≤ 57) || (65 ≤ c.toNat && c.toNat ≤ 90) ||
    (97 ≤ c.toNat && c.toNat ≤ 122) || c.toNat = 95

/-- `re.sub(r"[-_']", " ", text)` applied character-wise: hyphen,
underscore and apostrophe collapse to a space (main.py line 129). -/
def toSpacePunct (c : Char) : Char :=
  if c = '-' || c = '_' || c = Char.ofNat 39 then ' ' else c

/-- One pass of `re.sub(r"\s+", " ", text)` (main.py line 131): every
maximal run of whitespace becomes a single space.  The boolean flag
records whether we are inside a whitespace run. -/
def collapseWs : Bool → List Char → List Char
  | _, [] => []
  | inRun, c :: rest =>
    if isPySpace c then
      if inRun then collapseWs true rest else ' ' :: collapseWs true rest
    else c :: collapseWs false rest

/-- `str.strip()` on a character list: drop leading and trailing
whitespace (main.py line 132). -/
def stripChars (t : List Char) : List Char :=
  ((t.dropWhile isPySpace).reverse.dropWhile isPySpace).reverse

/-- `GrammarEngine.normalize_text` (main.py lines 126-132) on a character
list: lower-case, collapse `[-_']` to spaces, strip the remaining
non-word non-space characters, collapse whitespace runs, and strip the
ends.  `Char.toLower` is the ASCII-fragment model of `str.lower`. -/
def normList (s : List Char) : List Char :=
  stripChars (collapseWs false
    (((s.map Char.toLower).map toSpacePunct).filter (fun c => isWordChar c || isPySpace c)))

/-- `GrammarEngine.normalize_text` on `String` (main.py lines 126-132). -/
def normalize_text (s : String) : String :=
  ⟨normList s.data⟩

/-- Helper for `pySplit`: split a character list on whitespace runs;
`acc` holds the reversed characters of the word in progress. -/
def pySplitAux : List Char → List Char → List (List Char)
  | [], acc => if acc.isEmpty then [] else [acc.reverse]
  | c :: rest, acc =>
    if isPySpace c then
      if acc.isEmpty then pySplitAux rest []
      else acc.reverse :: pySplitAux rest []
    else pySplitAux rest (c :: acc)

/-- Python `str.split()` with no argument, as used throughout
`GrammarEngine`: split on maximal whitespace runs, producing no empty
words. -/
def pySplit (s : String) : List String :=
  (pySplitAux s.data []).map String.mk

/-- Python `k.startswith(n)` on strings. -/
def pyStarts (k n : String) : Bool :=
  n.data.isPrefixOf k.data

/-- Length of a longest common subsequence of two character lists. -/
def lcsLen : List Char → List Char → Nat
  | [], _ => 0
  | _ :: _, [] => 0
  | a :: as, b :: bs =>
    if a = b then lcsLen as bs + 1
    else max (lcsLen (a :: as) bs) (lcsLen as (b :: bs))
termination_by a b => a.length + b.length
decreasing_by all_goals simp_arith

/-- Modelled from the spec: the similarity strategy's edit-similarity
ratio.  The source calls `difflib.SequenceMatcher(None, a, b).ratio()`,
a Python standard-library collaborator whose code is not under `src/`;
the spec describes it as "classic ratio = 2 x matches / (len(a)+len(b))
over a longest-common-subsequence-style alignment", and difflib defines
the ratio of two empty strings to be 1. -/
def seqRatio (a b : String) : Rat :=
  if a.data.length + b.data.length = 0 then 1
  else mkRat (2 * (lcsLen a.data b.data : Int)) (a.data.length + b.data.length)

/-- `MIN_SUGGESTIONS` (main.py line 30). -/
def MIN_SUGGESTIONS : Nat := 20

/-- `MAX_SUGGESTIONS` (main.py line 31). -/
def MAX_SUGGESTIONS : Nat := 30

/-- `MIN_PHRASE_LENGTH` (main.py line 32). -/
def MIN_PHRASE_LENGTH : Nat := 3

/-- `self.original_map[n]` of `GrammarEngine` (main.py line 120): the
dict comprehension maps each normalized keyword to its original, the
later-loaded keyword winning on collisions, so a lookup returns the last
original whose normalization is `n`.  A missing key raises in Python and
is never exercised; here it returns `""`. -/
def originalOf (kws : List String) (n : String) : String :=
  ((kws.filter (fun k => normalize_text k == n)).getLast?).getD ""

/-- The exact-prefix strategy (main.py lines 197-202): every normalized
keyword that starts with the normalized query and is not equal to it
scores 1.0.  `K` is `self.keywords`, the normalized keyword list. -/
def startMatches (K : List String) (norm : String) : List (String × Rat) :=
  (K.filter (fun k => pyStarts k norm && k != norm)).map (fun k => (k, 1))

/-- The bucket `self.word_index[w]` built by `build_word_index`
(main.py lines 134-143): the normalized keyword phrases containing the
word `w`, each phrase listed once. -/
def wordBucket (K : List String) (w : String) : List String :=
  (K.filter (fun ph => (pySplit ph).contains w)).dedup

/-- The partial-word strategy (main.py lines 204-217): union the index
buckets of the query words into a candidate set; score each candidate by
the number of distinct shared words over the number of query words, keep
scores at least 0.5, and scale by 0.9.  The scaled float expression
`score * 0.9` with `score = common/len` is embedded as the exact
rational `(9*common)/(10*len)`. -/
def partialScores (K : List String) (norm : String) : List (String × Rat) :=
  let inputWords := pySplit norm
  if inputWords.isEmpty then []
  else
    let cands := (inputWords.flatMap (fun w => wordBucket K w)).dedup
    cands.filterMap (fun cand =>
      let commonCount := ((inputWords.dedup).filter (fun w => (pySplit cand).contains w)).length
      let score : Rat := mkRat commonCount inputWords.length
      if mkRat 1 2 ≤ score then some (cand, mkRat (9 * commonCount) (10 * inputWords.length))
      else none)

/-- The similarity strategy (main.py lines 219-225): every normalized
keyword different from the normalized query is paired with its
`SequenceMatcher` ratio against the query. -/
def similarityScores (K : List String) (norm : String) : List (String × Rat) :=
  (K.filter (fun k => k != norm)).map (fun k => (k, seqRatio norm k))

/-- `all_matches` of `check_phrase` (main.py lines 195-225): prefix
matches, then partial-word matches when enabled, then similarity
matches. -/
def allMatches (K : List String) (norm : String) (partialMatching : Bool) :
    List (String × Rat) :=
  startMatches K norm ++ (if partialMatching then partialScores K norm else []) ++
    similarityScores K norm

/-- One step of building `unique_matches` (main.py lines 228-231): a new
phrase is appended, a repeated phrase keeps its position and its maximal
score (Python dicts keep the first-insertion position on update). -/
def updMax : List (String × Rat) → String × Rat → List (String × Rat)
  | [], pr => [pr]
  | (q, t) :: rest, (p, s) =>
    if q = p then (q, if t < s then s else t) :: rest
    else (q, t) :: updMax rest (p, s)

/-- `unique_matches` (main.py lines 228-231): collapse the match list to
one maximal score per phrase. -/
def uniqueMatches (ms : List (String × Rat)) : List (String × Rat) :=
  ms.foldl updMax []

/-- The sort key of main.py line 238, as a total boolean order:
`sorted(filtered, key=lambda x: (-x[1], len(x[0])))` puts `x` before `y`
when `x` has the larger score, or equal scores and `x` is no longer. -/
def sortKeyLE (x y : String × Rat) : Bool :=
  decide (y.2 < x.2) || (decide (x.2 = y.2) && decide (x.1.length ≤ y.1.length))

/-- `filtered` of `check_phrase` (main.py lines 233-237): the collapsed
matches whose score reaches `min_similarity`. -/
def filteredMatches (K : List String) (norm : String) (min_similarity : Rat)
    (partialMatching : Bool) : List (String × Rat) :=
  (uniqueMatches (allMatches K norm partialMatching)).filter
    (fun pr => decide (min_similarity ≤ pr.2))

/-- `sorted_matches` of `check_phrase` (main.py line 238): stable sort by
descending score, ties broken by shorter phrase first. -/
def sortedMatches (K : List String) (norm : String) (min_similarity : Rat)
    (partialMatching : Bool) : List (String × Rat) :=
  (filteredMatches K norm min_similarity partialMatching).mergeSort sortKeyLE

/-- `results` of `check_phrase` before padding (main.py line 240):
truncate to `MAX_SUGGESTIONS` and map back to the original keywords. -/
def baseResults (kws : List String) (norm : String) (min_similarity : Rat)
    (partialMatching : Bool) : List String :=
  ((sortedMatches (kws.map normalize_text) norm min_similarity partialMatching).take
    MAX_SUGGESTIONS).map (fun pr => originalOf kws pr.1)

/-- The pad step of `check_phrase` (main.py lines 242-247): when fewer
than `MIN_SUGGESTIONS` results survive, append remaining originals in
index order until the minimum is met or the index is exhausted. -/
def padResults (kws : List String) (results : List String) : List String :=
  if results.length < MIN_SUGGESTIONS then
    results ++
      ((((kws.map normalize_text).map (originalOf kws)).filter
          (fun o => !(results.contains o))).take
        (MIN_SUGGESTIONS - results.length))
  else results

/-- `GrammarEngine.check_phrase` (main.py lines 193-249): run the three
strategies, collapse to one score per phrase, filter by the similarity
threshold, sort descending by score with shorter phrases first, truncate
to `MAX_SUGGESTIONS`, map back to originals, and pad with remaining
originals in index order up to `MIN_SUGGESTIONS`. -/
def check_phrase (kws : List String) (phrase : String) (min_similarity : Rat)
    (partialMatching : Bool) : List String :=
  padResults kws (baseResults kws (normalize_text phrase) min_similarity partialMatching)

/-- `WORD_BOUNDARIES` (main.py lines 28-29); the brace, backslash, quote
and apostrophe entries are written via code points. -/
def WORD_BOUNDARIES : List String :=
  ["space", "enter", "tab", ".", ",", "?", "!", ";", ":", "\n", ")", "(",
   "[", "]", String.mk [Char.ofNat 123], String.mk [Char.ofNat 125], "/",
   String.mk [Char.ofNat 92], "|", String.mk [Char.ofNat 34], String.mk [Char.ofNat 39]]

/-- The observable events `GrammarPalApp` sends to its external
collaborators: a suggestion popup being spawned (main.py lines
1149-1172), a web search being opened (lines 1175-1178), and the
correction application succeeding or failing (lines 1198-1245). -/
inductive Emission where
  | suggestionReady (phrase : String) (ranked : List String)
  | webSearch (phrase : String)
  | correctionApplied (original correction : String)
  | correctionFailed (original correction : String)
deriving DecidableEq

/-- The configuration options of `ConfigManager` that the embedded
control flow reads (main.py lines 66-89). -/
structure Config where
  /-- `max_phrase_length`, the deque capacity of the phrase buffer
  (main.py lines 69 and 534). -/
  maxPhraseLength : Nat
  /-- `min_phrase_length` (main.py lines 32, 76). -/
  minPhraseLength : Nat
  /-- `min_similarity` (main.py line 70). -/
  minSimilarity : Rat
  /-- `enable_partial_matching` (main.py line 73). -/
  partialMatching : Bool
  /-- `enable_web_search` (main.py line 85). -/
  enableWebSearch : Bool
  /-- `web_search_keyword` (main.py line 87). -/
  webSearchKeyword : String
  /-- `enable_word_learning` (main.py line 82). -/
  enableWordLearning : Bool
  /-- `clear_buffer_after_search` (main.py line 88). -/
  clearBufferAfterSearch : Bool
deriving DecidableEq

/-- The mutable state of `GrammarPalApp` (main.py lines 533-539) that
the embedded transitions read and write, plus the log of emissions to
external collaborators.  Logging and focused-window bookkeeping are
external I/O and are not modelled. -/
structure AppState where
  /-- `self.typed_chars` (main.py line 533). -/
  typedChars : List Char
  /-- `self.phrase_buffer` (main.py line 534), oldest word first. -/
  phraseBuffer : List String
  /-- `self.suggestion_active` (main.py line 535). -/
  suggestionActive : Bool
  /-- `self.force_suggest_mode` (main.py line 538). -/
  forceSuggestMode : Bool
  /-- `self.web_search_mode` (main.py line 539). -/
  webSearchMode : Bool
  /-- Events already emitted to external collaborators. -/
  emitted : List Emission
deriving DecidableEq

/-- Appending to `collections.deque(maxlen=n)` (main.py line 534): when
the deque is at capacity the oldest element is evicted. -/
def dequeAppend (maxlen : Nat) (buf : List String) (w : String) : List String :=
  if buf.length = maxlen then buf.tail ++ [w] else buf ++ [w]

/-- Python `str.lower` on a whole string (ASCII fragment). -/
def lowerStr (s : String) : String :=
  ⟨s.data.map Char.toLower⟩

/-- `GrammarPalApp.on_phrase_completed` (main.py lines 1128-1173)
together with `handle_web_search` (lines 1175-1185).  `kws` is the
loaded keyword list and `learned` the set `self.ge.learned_words`.
Suppression order follows the source: the debounce check, the
minimum-length check, the learned-word check, then the web-search
branch, then scoring and the suggestion emission. -/
def on_phrase_completed (cfg : Config) (kws learned : List String)
    (st : AppState) (phrase : String) : AppState :=
  if st.suggestionActive && !st.forceSuggestMode && !st.webSearchMode then st
  else if phrase.length < cfg.minPhraseLength then st
  else if !st.webSearchMode && cfg.enableWordLearning && learned.contains (normalize_text phrase) then st
  else if st.webSearchMode then
    let st1 := { st with emitted := st.emitted ++ [Emission.webSearch phrase] }
    let st2 :=
      if cfg.clearBufferAfterSearch then { st1 with phraseBuffer := [], typedChars := [] }
      else st1
    { st2 with webSearchMode := false, suggestionActive := false }
  else
    let suggestions := check_phrase kws phrase cfg.minSimilarity cfg.partialMatching
    if suggestions.isEmpty then st
    else
      { st with suggestionActive := true,
                emitted := st.emitted ++ [Emission.suggestionReady phrase suggestions],
                forceSuggestMode := false }

/-- `list(self.phrase_buffer)[-n:]` for `n >= 1`: the last `n` words. -/
def lastWords (n : Nat) (buf : List String) : List String :=
  buf.drop (buf.length - n)

/-- `' '.join(list(self.phrase_buffer)[-n:])` (main.py line 1124). -/
def joinLast (n : Nat) (buf : List String) : String :=
  String.intercalate " " (lastWords n buf)

/-- One iteration of the `check_combinations` loop (main.py lines
1122-1126): when the buffer holds at least `n` words, join the last `n`
words and submit the phrase if it meets the configured minimum
length. -/
def combStep (cfg : Config) (kws learned : List String)
    (s : AppState) (n : Nat) : AppState :=
  if n ≤ s.phraseBuffer.length then
    if cfg.minPhraseLength ≤ (joinLast n s.phraseBuffer).length then
      on_phrase_completed cfg kws learned s (joinLast n s.phraseBuffer)
    else s
  else s

/-- `GrammarPalApp.check_combinations` (main.py lines 1121-1126): run
`combStep` for `n = 4` down to `1`.  The buffer is re-read on every
iteration, as in the source. -/
def check_combinations (cfg : Config) (kws learned : List String)
    (st : AppState) : AppState :=
  [4, 3, 2, 1].foldl (combStep cfg kws learned) st

/-- Model of Python `str.isprintable` for a single character (ASCII
fragment: code points 32-126). -/
def isPrintableCh (c : Char) : Bool :=
  32 ≤ c.toNat && c.toNat ≤ 126

/-- The character of a single-character key-event name, if any. -/
def keyChar (name : String) : Option Char :=
  match name.data with
  | [c] => some c
  | _ => none

/-- The state after line 1114 of `on_key_press`: the typed buffer is
cleared, the stripped word is appended to the phrase deque (evicting the
oldest word at capacity), and the pending-suggestion flag is reset. -/
def pushState (cfg : Config) (st : AppState) : AppState :=
  { st with typedChars := [],
            phraseBuffer := dequeAppend cfg.maxPhraseLength st.phraseBuffer
              (String.mk (stripChars st.typedChars)),
            suggestionActive := false }

/-- Lines 1116-1117 of `on_key_press`: after the combination check, pop
the oldest word whenever the deque sits at capacity. -/
def postCombination (cfg : Config) (st : AppState) : AppState :=
  if st.phraseBuffer.length = cfg.maxPhraseLength then
    { st with phraseBuffer := st.phraseBuffer.tail }
  else st

/-- The word-boundary and backspace branches of `on_key_press`
(main.py lines 1102-1119), reached when the event name is not a single
printable character.  The completed word is `''.join(typed).strip()`,
embedded as `String.mk (stripChars st.typedChars)`. -/
def on_key_other (cfg : Config) (kws learned : List String)
    (st : AppState) (name : String) : AppState :=
  if name ∈ WORD_BOUNDARIES then
    if st.typedChars.isEmpty then st
    else
      if (String.mk (stripChars st.typedChars)) ≠ "" &&
          !((stripChars st.typedChars).any Char.isDigit) then
        if cfg.enableWebSearch &&
            (lowerStr (String.mk (stripChars st.typedChars)) == cfg.webSearchKeyword) then
          { st with typedChars := [], webSearchMode := true }
        else
          postCombination cfg (check_combinations cfg kws learned (pushState cfg st))
      else { st with typedChars := [] }
  else if name = "backspace" && !st.typedChars.isEmpty then
    { st with typedChars := st.typedChars.dropLast }
  else st

/-- `GrammarPalApp.on_key_press` (main.py lines 1094-1119).  A single
printable character is appended to the typed buffer unless it is a
digit, which discards the buffer; other event names fall through to the
word-boundary and backspace handling. -/
def on_key_press (cfg : Config) (kws learned : List String)
    (st : AppState) (name : String) : AppState :=
  match keyChar name with
  | some c =>
    if isPrintableCh c then
      if c.isDigit then { st with typedChars := [] }
      else { st with typedChars := st.typedChars ++ [c] }
    else on_key_other cfg kws learned st name
  | none => on_key_other cfg kws learned st name

/-- Feed a sequence of key-event names through `on_key_press`. -/
def runEvents (cfg : Config) (kws learned : List String)
    (st : AppState) (names : List String) : AppState :=
  names.foldl (on_key_press cfg kws learned) st

/-- `GrammarPalApp.apply_correction` (main.py lines 1198-1245).  The
clipboard, keystroke-synthesis and history steps inside the `try` block
are external collaborators, modelled by the flag `applyOk`: when they
succeed, the buffer clears at lines 1238-1239 run; when any of them
raises, control jumps to the `except` block, which only reports the
failure, and the `finally` block resets `suggestion_active` in both
cases. -/
def apply_correction (cfg : Config) (applyOk : Bool) (st : AppState)
    (original correction : String) : AppState :=
  if applyOk then
    { st with typedChars := [], phraseBuffer := [],
              emitted := st.emitted ++ [Emission.correctionApplied original correction],
              suggestionActive := false }
  else
    { st with emitted := st.emitted ++ [Emission.correctionFailed original correction],
              suggestionActive := false }

/-! ### Basic state-machine lemmas -/

/-- The debounce guard of `on_phrase_completed` (main.py line 1129):
with a suggestion outstanding and neither force-resubmit nor web-search
mode active, the submission returns immediately and changes nothing. -/
theorem on_phrase_completed_pending_id (cfg : Config) (kws learned : List String)
    (st : AppState) (p : String) (hA : st.suggestionActive = true)
    (hF : st.forceSuggestMode = false) (hW : st.webSearchMode = false) :
    on_phrase_completed cfg kws learned st p = st := by
  simp [on_phrase_completed, hA, hF, hW]

/-- Outside web-search mode, `on_phrase_completed` never touches the
typed-character buffer, the phrase window, or the web-search flag. -/
theorem on_phrase_completed_preserves (cfg : Config) (kws learned : List String)
    (st : AppState) (p : String) (hW : st.webSearchMode = false) :
    (on_phrase_completed cfg kws learned st p).phraseBuffer = st.phraseBuffer ∧
    (on_phrase_completed cfg kws learned st p).typedChars = st.typedChars ∧
    (on_phrase_completed cfg kws learned st p).webSearchMode = false := by
  unfold on_phrase_completed
  split_ifs <;> simp_all <;> split <;> simp_all

/-- `combStep` likewise preserves the buffers and the web-search flag
when web-search mode is off. -/
theorem combStep_preserves (cfg : Config) (kws learned : List String)
    (s : AppState) (n : Nat) (hW : s.webSearchMode = false) :
    (combStep cfg kws learned s n).phraseBuffer = s.phraseBuffer ∧
    (combStep cfg kws learned s n).typedChars = s.typedChars ∧
    (combStep cfg kws learned s n).webSearchMode = false := by
  unfold combStep
  split
  · split
    · exact on_phrase_completed_preserves cfg kws learned s _ hW
    · exact ⟨rfl, rfl, hW⟩
  · exact ⟨rfl, rfl, hW⟩

/-- Folding `combStep` over any iteration list preserves the buffers and
the web-search flag when web-search mode is off. -/
theorem combStep_foldl_preserves (cfg : Config) (kws learned : List String) :
    ∀ (ns : List Nat) (s : AppState), s.webSearchMode = false →
    (ns.foldl (combStep cfg kws learned) s).phraseBuffer = s.phraseBuffer ∧
    (ns.foldl (combStep cfg kws learned) s).typedChars = s.typedChars ∧
    (ns.foldl (combStep cfg kws learned) s).webSearchMode = false := by
  intro ns
  induction ns with
  | nil => intro s hW; exact ⟨rfl, rfl, hW⟩
  | cons n rest ih =>
    intro s hW
    obtain ⟨h1, h2, h3⟩ := combStep_preserves cfg kws learned s n hW
    obtain ⟨h4, h5, h6⟩ := ih (combStep cfg kws learned s n) h3
    exact ⟨h4.trans h1, h5.trans h2, h6⟩

/-- Outside web-search mode, `check_combinations` never touches the
typed-character buffer, the phrase window, or the web-search flag. -/
theorem check_combinations_preserves (cfg : Config) (kws learned : List String)
    (st : AppState) (hW : st.webSearchMode = false) :
    (check_combinations cfg kws learned st).phraseBuffer = st.phraseBuffer ∧
    (check_combinations cfg kws learned st).typedChars = st.typedChars ∧
    (check_combinations cfg kws learned st).webSearchMode = false :=
  combStep_foldl_preserves cfg kws learned [4, 3, 2, 1] st hW

/-- Typing a single printable non-digit character appends it to the
typed buffer and changes nothing else (main.py lines 1097-1101). -/
theorem on_key_press_char (cfg : Config) (kws learned : List String)
    (st : AppState) (c : Char) (hp : isPrintableCh c = true)
    (hd : c.isDigit = false) :
    on_key_press cfg kws learned st (String.mk [c]) =
      { st with typedChars := st.typedChars ++ [c] } := by
  simp [on_key_press, keyChar, hp, hd]

/-- Typing a digit clears the typed buffer and changes nothing else
(main.py lines 1098-1100). -/
theorem on_key_press_digit (cfg : Config) (kws learned : List String)
    (st : AppState) (c : Char) (hp : isPrintableCh c = true)
    (hd : c.isDigit = true) :
    on_key_press cfg kws learned st (String.mk [c]) =
      { st with typedChars := [] } := by
  simp [on_key_press, keyChar, hp, hd]

/-- `UInt32` order in terms of `toNat`. -/
theorem uint32_le_iff_toNat (a b : UInt32) : a ≤ b ↔ a.toNat ≤ b.toNat :=
  BitVec.le_def

/-- A digit character is printable (code points 48-57 lie in 32-126). -/
theorem isPrintableCh_of_isDigit (c : Char) (hd : c.isDigit = true) :
    isPrintableCh c = true := by
  simp only [Char.isDigit, decide_eq_true_eq, Bool.and_eq_true] at hd
  have h1' : 48 ≤ c.toNat := (uint32_le_iff_toNat 48 c.val).mp hd.1
  have h2' : c.toNat ≤ 57 := (uint32_le_iff_toNat c.val 57).mp hd.2
  simp only [isPrintableCh, Bool.and_eq_true, decide_eq_true_eq]
  omega

/-- A word-boundary event arriving while the typed buffer is empty
leaves the state unchanged (main.py line 1103 guard). -/
theorem on_key_other_empty_typed (cfg : Config) (kws learned : List String)
    (st : AppState) (bname : String) (ht : st.typedChars = []) :
    on_key_other cfg kws learned st bname = st := by
  unfold on_key_other
  split
  · simp [ht]
  · split
    · simp_all
    · rfl

/-! ### Claim C4 -/

/-- Claim C4: while a suggestion is outstanding (`suggestion_active`)
and neither force-resubmit nor web-search mode is active, a
phrase-completion submission returns immediately without emitting, so
two consecutive non-forced submissions leave the state unchanged and
emit at most one (in fact zero) suggestion events. -/
theorem debounce_two_submissions (cfg : Config) (kws learned : List String)
    (st : AppState) (p₁ p₂ : String) (hA : st.suggestionActive = true)
    (hF : st.forceSuggestMode = false) (hW : st.webSearchMode = false) :
    on_phrase_completed cfg kws learned st p₁ = st ∧
    on_phrase_completed cfg kws learned
      (on_phrase_completed cfg kws learned st p₁) p₂ = st := by
  have h1 := on_phrase_completed_pending_id cfg kws learned st p₁ hA hF hW
  refine ⟨h1, ?_⟩
  rw [h1]
  exact on_phrase_completed_pending_id cfg kws learned st p₂ hA hF hW

/-- Witness for C4 at a concrete Pending state. -/
theorem debounce_two_submissions_witness :
    (AppState.mk [] ["aa"] true false false []).suggestionActive = true ∧
    (AppState.mk [] ["aa"] true false false []).forceSuggestMode = false ∧
    (AppState.mk [] ["aa"] true false false []).webSearchMode = false ∧
    (on_phrase_completed (Config.mk 2 3 (mkRat 1 2) true false "search" true true)
      ["aa bb"] [] (AppState.mk [] ["aa"] true false false []) "aa bb" =
        AppState.mk [] ["aa"] true false false [] ∧
     on_phrase_completed (Config.mk 2 3 (mkRat 1 2) true false "search" true true)
      ["aa bb"] []
      (on_phrase_completed (Config.mk 2 3 (mkRat 1 2) true false "search" true true)
        ["aa bb"] [] (AppState.mk [] ["aa"] true false false []) "aa bb") "aa" =
        AppState.mk [] ["aa"] true false false []) :=
  ⟨rfl, rfl, rfl,
    debounce_two_submissions (Config.mk 2 3 (mkRat 1 2) true false "search" true true)
      ["aa bb"] [] (AppState.mk [] ["aa"] true false false []) "aa bb" "aa" rfl rfl rfl⟩

/-! ### Claim C8 -/

/-- Claim C8 counterexample: when the correction-application
collaborator fails, the typed-character buffer and the phrase window are
NOT cleared — the clears sit at the end of the `try` block, after the
fallible steps — contradicting the claim that they are still cleared. -/
theorem apply_correction_failure_keeps_buffers :
    (apply_correction (Config.mk 2 3 (mkRat 1 2) true true "search" true true) false
      (AppState.mk ['x'] ["aa"] true false false []) "aa" "bb").phraseBuffer = ["aa"] ∧
    (apply_correction (Config.mk 2 3 (mkRat 1 2) true true "search" true true) false
      (AppState.mk ['x'] ["aa"] true false false []) "aa" "bb").typedChars = ['x'] := by
  exact ⟨rfl, rfl⟩

/-- Claim C8 (amended): when the correction-application step fails
during `apply_correction`, the typed-character buffer and the phrase
window are left untouched (they are cleared only on success); the
failure is reported by a single failure emission, it is not retried, and
the pending-suggestion flag is reset. -/
theorem apply_correction_failure_behavior (cfg : Config) (st : AppState)
    (original correction : String) :
    apply_correction cfg false st original correction =
      { st with suggestionActive := false,
                emitted := st.emitted ++ [Emission.correctionFailed original correction] } := by
  rfl

/-! ### Claim C9 -/

/-- Claim C9: a digit keystroke discards the typed-character buffer
entirely, so a following word-boundary key pushes no word onto the
phrase window: the composite state is the original state with an empty
typed buffer, the phrase window unchanged, and nothing emitted. -/
theorem digit_invalidation (cfg : Config) (kws learned : List String)
    (st : AppState) (c : Char) (bname : String) (hd : c.isDigit = true)
    (hb : bname ∈ WORD_BOUNDARIES)
    (hnp : ∀ d, keyChar bname = some d → isPrintableCh d = false) :
    on_key_press cfg kws learned
      (on_key_press cfg kws learned st (String.mk [c])) bname =
      { st with typedChars := [] } := by
  rw [on_key_press_digit cfg kws learned st c (isPrintableCh_of_isDigit c hd) hd]
  have hother : on_key_press cfg kws learned { st with typedChars := [] } bname =
      on_key_other cfg kws learned { st with typedChars := [] } bname := by
    unfold on_key_press
    cases hk : keyChar bname with
    | none => rfl
    | some d => simp [hnp d hk]
  rw [hother]
  exact on_key_other_empty_typed cfg kws learned _ bname rfl

/-- Witness for C9: typing "c", then "3", then the space word-boundary
key pushes no word. -/
theorem digit_invalidation_witness :
    ('3' : Char).isDigit = true ∧ "space" ∈ WORD_BOUNDARIES ∧
    (∀ d, keyChar "space" = some d → isPrintableCh d = false) ∧
    on_key_press (Config.mk 2 3 (mkRat 1 2) true false "search" true true) [] []
      (on_key_press (Config.mk 2 3 (mkRat 1 2) true false "search" true true) [] []
        (AppState.mk ['c'] [] false false false []) (String.mk ['3'])) "space" =
      AppState.mk [] [] false false false [] :=
  ⟨rfl, by decide, by decide,
    digit_invalidation (Config.mk 2 3 (mkRat 1 2) true false "search" true true) [] []
      (AppState.mk ['c'] [] false false false []) '3' "space" rfl (by decide) (by decide)⟩

/-! ### Claim C10 -/

/-- Claim C10 counterexample: the comparison at main.py line 1109 is
`word.lower() == web_search_keyword` — only the typed word is
lower-cased.  With the configured keyword "A" the typed word "a" equals
the keyword case-insensitively (both lower-case to "a"), yet the word is
appended to the phrase window and web-search mode is not entered,
contradicting the claim's case-insensitive trigger. -/
theorem web_keyword_case_counterexample :
    lowerStr "a" = lowerStr "A" ∧
    (Config.mk 2 3 (mkRat 1 2) true true "A" true true).enableWebSearch = true ∧
    (on_key_press (Config.mk 2 3 (mkRat 1 2) true true "A" true true) [] []
      (AppState.mk ['a'] [] false false false []) "space").phraseBuffer = ["a"] ∧
    (on_key_press (Config.mk 2 3 (mkRat 1 2) true true "A" true true) [] []
      (AppState.mk ['a'] [] false false false []) "space").webSearchMode = false := by
  refine ⟨by decide, rfl, ?_, ?_⟩ <;> decide

/-- Claim C10 (amended): if web search is enabled and the *lower-cased*
completed word equals the configured web-search keyword verbatim (the
in-app setter stores the keyword lower-cased), the word-boundary event
only clears the typed buffer and enters web-search mode: the word is not
appended to the phrase window, no suggestion check runs, and nothing is
emitted. -/
theorem web_keyword_enters_search_mode (cfg : Config) (kws learned : List String)
    (st : AppState) (bname : String) (hb : bname ∈ WORD_BOUNDARIES)
    (hnp : ∀ d, keyChar bname = some d → isPrintableCh d = false)
    (hws : cfg.enableWebSearch = true)
    (htc : st.typedChars.isEmpty = false)
    (hne : (String.mk (stripChars st.typedChars)) ≠ "")
    (hnd : (stripChars st.typedChars).any Char.isDigit = false)
    (hkw : lowerStr (String.mk (stripChars st.typedChars)) = cfg.webSearchKeyword) :
    on_key_press cfg kws learned st bname =
      { st with typedChars := [], webSearchMode := true } := by
  have hother : on_key_press cfg kws learned st bname =
      on_key_other cfg kws learned st bname := by
    unfold on_key_press
    cases hk : keyChar bname with
    | none => rfl
    | some d => simp [hnp d hk]
  rw [hother]
  unfold on_key_other
  rw [if_pos hb, if_neg (by simp [htc]), if_pos (by simp [hne, hnd]),
    if_pos (by simp [hws, hkw])]

/-- Witness for C10: with keyword "search" (enabled), typing "SEARCH"
then enter only sets web-search mode. -/
theorem web_keyword_enters_search_mode_witness :
    "enter" ∈ WORD_BOUNDARIES ∧
    (∀ d, keyChar "enter" = some d → isPrintableCh d = false) ∧
    (Config.mk 2 3 (mkRat 1 2) true true "search" true true).enableWebSearch = true ∧
    (AppState.mk ['S', 'E', 'A', 'R', 'C', 'H'] ["aa"] false false false []).typedChars.isEmpty = false ∧
    (String.mk (stripChars ['S', 'E', 'A', 'R', 'C', 'H'])) ≠ "" ∧
    (stripChars ['S', 'E', 'A', 'R', 'C', 'H']).any Char.isDigit = false ∧
    lowerStr (String.mk (stripChars ['S', 'E', 'A', 'R', 'C', 'H'])) = "search" ∧
    on_key_press (Config.mk 2 3 (mkRat 1 2) true true "search" true true) [] []
      (AppState.mk ['S', 'E', 'A', 'R', 'C', 'H'] ["aa"] false false false []) "enter" =
      AppState.mk [] ["aa"] false false true [] :=
  ⟨by decide, by decide, rfl, rfl, by decide, by decide, by decide,
    web_keyword_enters_search_mode (Config.mk 2 3 (mkRat 1 2) true true "search" true true)
      [] [] (AppState.mk ['S', 'E', 'A', 'R', 'C', 'H'] ["aa"] false false false []) "enter"
      (by decide) (by decide) rfl rfl (by decide) (by decide) (by decide)⟩

/-! ### Claim C2 -/

/-- The key events that type the characters of `w` and then the space
word-boundary key. -/
def pushWordEvents (w : String) : List String :=
  w.data.map (fun c => String.mk [c]) ++ ["space"]

/-- The net effect of one word-boundary push on the phrase window
(main.py lines 1113-1117): the deque append at capacity evicts the
oldest word, and after the combination check the oldest word is popped
again whenever the buffer sits at capacity. -/
def windowAfterPush (maxlen : Nat) (buf : List String) (w : String) : List String :=
  if (dequeAppend maxlen buf w).length = maxlen then (dequeAppend maxlen buf w).tail
  else dequeAppend maxlen buf w

/-- Characters that are printable, not digits and not whitespace, so
that typing them accumulates them verbatim into a word. -/
def plainChar (c : Char) : Bool :=
  isPrintableCh c && !c.isDigit && !isPySpace c

/-- Projection of `postCombination` on the phrase window. -/
theorem postCombination_phraseBuffer (cfg : Config) (st : AppState) :
    (postCombination cfg st).phraseBuffer =
      if st.phraseBuffer.length = cfg.maxPhraseLength then st.phraseBuffer.tail
      else st.phraseBuffer := by
  unfold postCombination
  split <;> rfl

/-- `postCombination` never touches the typed buffer. -/
theorem postCombination_typedChars (cfg : Config) (st : AppState) :
    (postCombination cfg st).typedChars = st.typedChars := by
  unfold postCombination
  split <;> rfl

/-- `postCombination` never touches the web-search flag. -/
theorem postCombination_webSearchMode (cfg : Config) (st : AppState) :
    (postCombination cfg st).webSearchMode = st.webSearchMode := by
  unfold postCombination
  split <;> rfl

/-- Dropping leading whitespace of a whitespace-free list is a no-op. -/
theorem dropWhile_eq_self_of_no_space (l : List Char)
    (h : ∀ c ∈ l, isPySpace c = false) : l.dropWhile isPySpace = l := by
  cases l with
  | nil => rfl
  | cons c rest => simp [List.dropWhile, h c (by simp)]

/-- Stripping a whitespace-free list is a no-op. -/
theorem stripChars_of_no_space (l : List Char)
    (h : ∀ c ∈ l, isPySpace c = false) : stripChars l = l := by
  unfold stripChars
  rw [dropWhile_eq_self_of_no_space l h,
    dropWhile_eq_self_of_no_space l.reverse (by intro c hc; exact h c (by simpa using hc)),
    List.reverse_reverse]

/-- Typing the characters of a word appends them to the typed buffer. -/
theorem runEvents_chars (cfg : Config) (kws learned : List String) :
    ∀ (cs : List Char) (st : AppState),
    (∀ c ∈ cs, plainChar c = true) →
    runEvents cfg kws learned st (cs.map (fun c => String.mk [c])) =
      { st with typedChars := st.typedChars ++ cs } := by
  intro cs
  induction cs with
  | nil => intro st _; simp [runEvents]
  | cons c rest ih =>
    intro st h
    have hc := h c (by simp)
    simp only [plainChar, Bool.and_eq_true, Bool.not_eq_true'] at hc
    have h1 : runEvents cfg kws learned st
        ((c :: rest).map (fun c => String.mk [c])) =
        runEvents cfg kws learned { st with typedChars := st.typedChars ++ [c] }
          (rest.map (fun c => String.mk [c])) := by
      simp only [List.map_cons, runEvents, List.foldl_cons]
      rw [on_key_press_char cfg kws learned st c hc.1.1 hc.1.2]
    rw [h1, ih { st with typedChars := st.typedChars ++ [c] }
      (fun d hd => h d (by simp [hd]))]
    simp

/-- The space word-boundary event when web search is disabled: the typed
word is pushed through the deque append and the capacity pop, the typed
buffer is cleared, and web-search mode stays off. -/
theorem on_key_press_space_push (cfg : Config) (kws learned : List String)
    (st : AppState) (hws : cfg.enableWebSearch = false)
    (hW : st.webSearchMode = false)
    (htc : st.typedChars ≠ [])
    (hnsp : ∀ c ∈ st.typedChars, isPySpace c = false)
    (hnd : st.typedChars.any Char.isDigit = false) :
    (on_key_press cfg kws learned st "space").phraseBuffer =
      windowAfterPush cfg.maxPhraseLength st.phraseBuffer (String.mk st.typedChars) ∧
    (on_key_press cfg kws learned st "space").typedChars = [] ∧
    (on_key_press cfg kws learned st "space").webSearchMode = false := by
  have hstrip : stripChars st.typedChars = st.typedChars := stripChars_of_no_space _ hnsp
  have hne : (String.mk (stripChars st.typedChars)) ≠ "" := by
    rw [hstrip]
    intro hcon
    exact htc (congrArg String.data hcon)
  have hne' : (String.mk st.typedChars) ≠ "" := by
    intro hcon
    exact htc (congrArg String.data hcon)
  have hother : on_key_press cfg kws learned st "space" =
      on_key_other cfg kws learned st "space" := rfl
  rw [hother]
  unfold on_key_other
  rw [if_pos (show "space" ∈ WORD_BOUNDARIES by decide), if_neg (by simp [htc]),
    if_pos (by simp [hstrip, hne', hnd]), if_neg (by simp [hws])]
  obtain ⟨hp, htyp, hwm⟩ :=
    check_combinations_preserves cfg kws learned (pushState cfg st) hW
  have hpb : (pushState cfg st).phraseBuffer =
      dequeAppend cfg.maxPhraseLength st.phraseBuffer (String.mk st.typedChars) := by
    simp [pushState, hstrip]
  have hAB : (check_combinations cfg kws learned (pushState cfg st)).phraseBuffer =
      dequeAppend cfg.maxPhraseLength st.phraseBuffer (String.mk st.typedChars) := by
    rw [hp, hpb]
  refine ⟨?_, ?_, ?_⟩
  · rw [postCombination_phraseBuffer, hAB]
    rfl
  · rw [postCombination_typedChars, htyp]
    rfl
  · rw [postCombination_webSearchMode, hwm]

/-- Pushing one whole word (characters then space) from a state with an
empty typed buffer. -/
theorem push_one_word (cfg : Config) (kws learned : List String)
    (st : AppState) (w : String) (hws : cfg.enableWebSearch = false)
    (hW : st.webSearchMode = false) (htc : st.typedChars = [])
    (hchars : ∀ c ∈ w.data, plainChar c = true) (hne : w.data ≠ []) :
    (runEvents cfg kws learned st (pushWordEvents w)).phraseBuffer =
      windowAfterPush cfg.maxPhraseLength st.phraseBuffer w ∧
    (runEvents cfg kws learned st (pushWordEvents w)).typedChars = [] ∧
    (runEvents cfg kws learned st (pushWordEvents w)).webSearchMode = false := by
  have hsplit : runEvents cfg kws learned st (pushWordEvents w) =
      on_key_press cfg kws learned
        (runEvents cfg kws learned st (w.data.map (fun c => String.mk [c]))) "space" := by
    unfold pushWordEvents runEvents
    rw [List.foldl_append]
    rfl
  rw [hsplit, runEvents_chars cfg kws learned w.data st hchars, htc]
  have hmk : String.mk ([] ++ w.data) = w := by
    simp only [List.nil_append]
  have := on_key_press_space_push cfg kws learned
    { st with typedChars := [] ++ w.data } hws hW
    (by simpa using hne)
    (by
      intro c hc
      have := hchars c (by simpa using hc)
      simp only [plainChar, Bool.and_eq_true, Bool.not_eq_true'] at this
      exact this.2)
    (by
      rw [List.any_eq_false]
      intro c hc
      have := hchars c (by simpa using hc)
      simp only [plainChar, Bool.and_eq_true, Bool.not_eq_true'] at this
      simp [this.1.2])
  simpa [hmk] using this

/-- Pushing a list of words one after another folds `windowAfterPush`
over the phrase window. -/
theorem push_many_words (cfg : Config) (kws learned : List String) :
    ∀ (ws : List String) (st : AppState), cfg.enableWebSearch = false →
    st.webSearchMode = false → st.typedChars = [] →
    (∀ w ∈ ws, w.data ≠ [] ∧ ∀ c ∈ w.data, plainChar c = true) →
    (runEvents cfg kws learned st (ws.flatMap pushWordEvents)).phraseBuffer =
      ws.foldl (windowAfterPush cfg.maxPhraseLength) st.phraseBuffer ∧
    (runEvents cfg kws learned st (ws.flatMap pushWordEvents)).typedChars = [] ∧
    (runEvents cfg kws learned st (ws.flatMap pushWordEvents)).webSearchMode = false := by
  intro ws
  induction ws with
  | nil => intro st _ hW htc _; exact ⟨rfl, htc, hW⟩
  | cons w rest ih =>
    intro st hws hW htc hall
    have hw := hall w (by simp)
    have hsplit : runEvents cfg kws learned st ((w :: rest).flatMap pushWordEvents) =
        runEvents cfg kws learned
          (runEvents cfg kws learned st (pushWordEvents w)) (rest.flatMap pushWordEvents) := by
      simp only [List.flatMap_cons, runEvents]
      rw [List.foldl_append]
    obtain ⟨hp1, ht1, hw1⟩ := push_one_word cfg kws learned st w hws hW htc hw.2 hw.1
    obtain ⟨hp2, ht2, hw2⟩ := ih (runEvents cfg kws learned st (pushWordEvents w))
      hws hw1 ht1 (fun v hv => hall v (by simp [hv]))
    rw [hsplit]
    refine ⟨?_, ht2, hw2⟩
    rw [hp2, hp1]
    simp

/-- Folding `windowAfterPush` from a buffer below capacity keeps the
last `maxlen - 1` elements of the concatenation. -/
theorem windowAfterPush_foldl (c : Nat) (hc : 1 ≤ c) :
    ∀ (ws : List String) (b : List String), b.length ≤ c - 1 →
    ws.foldl (windowAfterPush c) b = (b ++ ws).drop (b.length + ws.length - (c - 1)) := by
  intro ws
  induction ws with
  | nil =>
    intro b hb
    simp only [List.foldl_nil, List.append_nil, List.length_nil, Nat.add_zero]
    rw [Nat.sub_eq_zero_of_le hb, List.drop_zero]
  | cons w rest ih =>
    intro b hb
    have hblt : b.length ≠ c := by omega
    have happ : dequeAppend c b w = b ++ [w] := by
      unfold dequeAppend
      rw [if_neg hblt]
    simp only [List.foldl_cons, List.length_cons]
    by_cases hfull : b.length + 1 = c
    · have hstep : windowAfterPush c b w = (b ++ [w]).tail := by
        unfold windowAfterPush
        rw [happ, if_pos (by simp [hfull])]
      rw [hstep]
      have hlen : (b ++ [w]).tail.length = c - 1 := by
        simp [List.length_tail]
        omega
      rw [ih _ (le_of_eq hlen)]
      obtain ⟨x, u, hxu⟩ : ∃ x u, b ++ [w] = x :: u := by
        cases hbw : b ++ [w] with
        | nil => simp at hbw
        | cons x u => exact ⟨x, u, rfl⟩
      have htail : (b ++ [w]).tail = u := by rw [hxu]; rfl
      have hrw : b ++ w :: rest = x :: (u ++ rest) := by
        have : b ++ w :: rest = (b ++ [w]) ++ rest := by simp
        rw [this, hxu]; rfl
      rw [htail, hrw]
      have hulen : u.length = c - 1 := by rw [← htail]; exact hlen
      have h1 : u.length + rest.length - (c - 1) = rest.length := by omega
      have h2 : x :: (u ++ rest) = [x] ++ (u ++ rest) := rfl
      rw [h1, h2]
      have h3 : b.length + (rest.length + 1) - (c - 1) = rest.length + 1 := by omega
      rw [h3]
      simp [List.drop_append_of_le_length]
    · have hstep : windowAfterPush c b w = b ++ [w] := by
        unfold windowAfterPush
        rw [happ, if_neg (by simp; omega)]
      rw [hstep]
      have hlen2 : (b ++ [w]).length ≤ c - 1 := by simp; omega
      rw [ih _ hlen2]
      have : b ++ [w] ++ rest = b ++ w :: rest := by simp
      rw [this]
      congr 1
      simp
      omega

/-- Claim C2 counterexample: with capacity 1, pushing two words through
the word-boundary transition leaves zero words in the window, not one —
the `popleft` at main.py lines 1116-1117 empties the deque right after
every push at capacity. -/
theorem window_capacity_counterexample :
    (runEvents (Config.mk 1 3 (mkRat 1 2) true false "search" true true) [] []
      (AppState.mk [] [] false false false [])
      ["a", "a", "space", "b", "b", "space"]).phraseBuffer = [] ∧
    (runEvents (Config.mk 1 3 (mkRat 1 2) true false "search" true true) [] []
      (AppState.mk [] [] false false false [])
      ["a", "a", "space", "b", "b", "space"]).phraseBuffer.length ≠
      (Config.mk 1 3 (mkRat 1 2) true false "search" true true).maxPhraseLength := by
  exact ⟨by decide, by decide⟩

/-- Claim C2 (amended): pushing `capacity + 1` completed words through
the word-boundary transition into an initially empty phrase window of
capacity `c ≥ 1` leaves exactly `c - 1` words: the oldest two words are
evicted and the relative order of the remaining words is preserved (the
window holds the last `c - 1` words pushed). -/
theorem window_push_leaves_capacity_minus_one (cfg : Config)
    (kws learned : List String) (st : AppState) (ws : List String)
    (hc : 1 ≤ cfg.maxPhraseLength) (hws : cfg.enableWebSearch = false)
    (hlen : ws.length = cfg.maxPhraseLength + 1)
    (hwords : ∀ w ∈ ws, w.data ≠ [] ∧ ∀ c ∈ w.data, plainChar c = true)
    (hW : st.webSearchMode = false) (htc : st.typedChars = [])
    (hpb : st.phraseBuffer = []) :
    (runEvents cfg kws learned st (ws.flatMap pushWordEvents)).phraseBuffer = ws.drop 2 ∧
    (runEvents cfg kws learned st (ws.flatMap pushWordEvents)).phraseBuffer.length =
      cfg.maxPhraseLength - 1 := by
  obtain ⟨hp, _, _⟩ := push_many_words cfg kws learned ws st hws hW htc hwords
  rw [hp, hpb]
  rw [windowAfterPush_foldl cfg.maxPhraseLength hc ws [] (by simp)]
  have h1 : ([] : List String).length + ws.length - (cfg.maxPhraseLength - 1) = 2 := by
    simp [hlen]; omega
  rw [h1]
  simp only [List.nil_append]
  refine ⟨trivial, ?_⟩
  rw [List.length_drop, hlen]
  omega

/-- Witness for C2 (amended) at capacity 3 with four pushed words. -/
theorem window_push_leaves_capacity_minus_one_witness :
    1 ≤ (Config.mk 3 30 (mkRat 1 2) true false "search" true true).maxPhraseLength ∧
    (["aa", "bb", "cc", "dd"] : List String).length =
      (Config.mk 3 30 (mkRat 1 2) true false "search" true true).maxPhraseLength + 1 ∧
    (runEvents (Config.mk 3 30 (mkRat 1 2) true false "search" true true) [] []
      (AppState.mk [] [] false false false [])
      ((["aa", "bb", "cc", "dd"] : List String).flatMap pushWordEvents)).phraseBuffer =
      ["cc", "dd"] ∧
    (runEvents (Config.mk 3 30 (mkRat 1 2) true false "search" true true) [] []
      (AppState.mk [] [] false false false [])
      ((["aa", "bb", "cc", "dd"] : List String).flatMap pushWordEvents)).phraseBuffer.length = 2 :=
  ⟨by decide, by decide,
    (window_push_leaves_capacity_minus_one
      (Config.mk 3 30 (mkRat 1 2) true false "search" true true) [] []
      (AppState.mk [] [] false false false []) ["aa", "bb", "cc", "dd"]
      (by decide) rfl (by decide) (by decide) rfl rfl rfl).1,
    (window_push_leaves_capacity_minus_one
      (Config.mk 3 30 (mkRat 1 2) true false "search" true true) [] []
      (AppState.mk [] [] false false false []) ["aa", "bb", "cc", "dd"]
      (by decide) rfl (by decide) (by decide) rfl rfl rfl).2⟩

/-! ### Claim C1 -/

/-- Claim C1 counterexample: with the single keyword "abc" (so the query
"abc" is itself an indexed phrase), `check_phrase` *does* return the
query's original: the partial-word strategy (main.py lines 204-217)
contains no self-exclusion check, scoring the query's own phrase at 0.9,
which survives the 0.5 threshold. -/
theorem check_phrase_returns_query_itself :
    normalize_text "abc" ∈ (["abc"] : List String).map normalize_text ∧
    originalOf ["abc"] (normalize_text "abc") ∈
      check_phrase ["abc"] "abc" (mkRat 1 2) true := by
  have hfil : filteredMatches ["abc"] "abc" (mkRat 1 2) true = [("abc", mkRat 9 10)] := by
    decide
  have hsort : sortedMatches ["abc"] "abc" (mkRat 1 2) true = [("abc", mkRat 9 10)] := by
    rw [sortedMatches]
    rw [show filteredMatches ["abc"] "abc" (mkRat 1 2) true = [("abc", mkRat 9 10)] from hfil]
    exact List.mergeSort_singleton _
  refine ⟨by decide, ?_⟩
  rw [check_phrase, show normalize_text "abc" = "abc" from by decide, baseResults,
    show (["abc"] : List String).map normalize_text = ["abc"] from by decide, hsort]
  decide

/-- Claim C1 (amended): the prefix strategy and the similarity strategy
each exclude the normalized query from their match lists; the
partial-word strategy and the pad-to-minimum step perform no such
exclusion, so `check_phrase` can return the query itself (see the
counterexample). -/
theorem check_phrase_strategy_self_exclusion (kws : List String) (q : String)
    (pr : String × Rat)
    (h : pr ∈ startMatches (kws.map normalize_text) (normalize_text q) ∨
         pr ∈ similarityScores (kws.map normalize_text) (normalize_text q)) :
    pr.1 ≠ normalize_text q := by
  rcases h with h | h
  · unfold startMatches at h
    obtain ⟨k, hk, hpr⟩ := List.mem_map.mp h
    obtain ⟨_, hcond⟩ := List.mem_filter.mp hk
    simp only [Bool.and_eq_true, bne_iff_ne] at hcond
    rw [← hpr]
    exact hcond.2
  · unfold similarityScores at h
    obtain ⟨k, hk, hpr⟩ := List.mem_map.mp h
    obtain ⟨_, hcond⟩ := List.mem_filter.mp hk
    simp only [bne_iff_ne] at hcond
    rw [← hpr]
    exact hcond

/-- Witness for C1 (amended): the prefix match ("ab", 1.0) for query "a"
over the keyword list ["ab"] names a phrase different from the query. -/
theorem check_phrase_strategy_self_exclusion_witness :
    (("ab", (1 : Rat)) ∈ startMatches ((["ab"] : List String).map normalize_text)
        (normalize_text "a") ∨
      ("ab", (1 : Rat)) ∈ similarityScores ((["ab"] : List String).map normalize_text)
        (normalize_text "a")) ∧
    ("ab", (1 : Rat)).1 ≠ normalize_text "a" :=
  ⟨Or.inl (by decide),
    check_phrase_strategy_self_exclusion ["ab"] "a" ("ab", (1 : Rat))
      (Or.inl (by decide))⟩

/-! ### Claim C3 -/

/-- The phrases the `check_combinations` loop submits for a window `B`
when iterating the counts `ns`: those `n` not exceeding the window
length, joined from the last `n` words, whose length meets the
configured minimum. -/
def combPhrasesOf (cfg : Config) (B : List String) (ns : List Nat) : List String :=
  (ns.filter (fun n => n ≤ B.length)).filterMap (fun n =>
    if cfg.minPhraseLength ≤ (joinLast n B).length then some (joinLast n B) else none)

/-- The submitted phrases of `check_combinations` in loop order
(`n = 4` down to `1`). -/
def combPhrases (cfg : Config) (B : List String) : List String :=
  combPhrasesOf cfg B [4, 3, 2, 1]

/-- The first submitted phrase whose `check_phrase` match list is
non-empty, if any. -/
def hitOption (cfg : Config) (kws : List String) (ps : List String) : Option String :=
  ps.find? (fun p => !(check_phrase kws p cfg.minSimilarity cfg.partialMatching).isEmpty)

/-- The suggestion events produced for the submitted phrases `ps`: one
`suggestionReady` at the first phrase with a non-empty match list,
nothing otherwise. -/
def hitEmissions (cfg : Config) (kws : List String) (ps : List String) : List Emission :=
  match hitOption cfg kws ps with
  | none => []
  | some p => [Emission.suggestionReady p
      (check_phrase kws p cfg.minSimilarity cfg.partialMatching)]

/-- From a state with a suggestion outstanding and no force or web mode,
the whole combination loop is a no-op. -/
theorem combStep_foldl_pending_id (cfg : Config) (kws learned : List String) :
    ∀ (ns : List Nat) (s : AppState), s.suggestionActive = true →
    s.forceSuggestMode = false → s.webSearchMode = false →
    ns.foldl (combStep cfg kws learned) s = s := by
  intro ns
  induction ns with
  | nil => intro s _ _ _; rfl
  | cons n rest ih =>
    intro s hA hF hW
    have hstep : combStep cfg kws learned s n = s := by
      unfold combStep
      split
      · split
        · exact on_phrase_completed_pending_id cfg kws learned s _ hA hF hW
        · rfl
      · rfl
    simp only [List.foldl_cons, hstep]
    exact ih s hA hF hW

/-- The main induction for claim C3: folding the combination loop over
any count list from an idle state emits exactly the suggestion events of
`hitEmissions`, sets the pending flag exactly when some submission hit,
and preserves the window. -/
theorem combStep_foldl_emits (cfg : Config) (kws learned : List String)
    (B : List String) :
    ∀ (ns : List Nat) (s : AppState), s.phraseBuffer = B →
    s.suggestionActive = false → s.forceSuggestMode = false →
    s.webSearchMode = false →
    (∀ p ∈ combPhrasesOf cfg B ns,
      ¬(cfg.enableWordLearning = true ∧ normalize_text p ∈ learned)) →
    (ns.foldl (combStep cfg kws learned) s).emitted =
      s.emitted ++ hitEmissions cfg kws (combPhrasesOf cfg B ns) ∧
    (ns.foldl (combStep cfg kws learned) s).suggestionActive =
      (hitOption cfg kws (combPhrasesOf cfg B ns)).isSome ∧
    (ns.foldl (combStep cfg kws learned) s).phraseBuffer = B := by
  intro ns
  induction ns with
  | nil =>
    intro s hB hA _ _ _
    simpa [combPhrasesOf, hitEmissions, hitOption, hA, hB] using rfl
  | cons n rest ih =>
    intro s hB hA hF hW hL
    by_cases hn : n ≤ B.length
    · by_cases hq : cfg.minPhraseLength ≤ (joinLast n B).length
      · -- the phrase qualifies and is submitted
        have hphrases : combPhrasesOf cfg B (n :: rest) =
            joinLast n B :: combPhrasesOf cfg B rest := by
          unfold combPhrasesOf
          rw [List.filter_cons_of_pos (by simpa using hn)]
          rw [List.filterMap_cons]
          rw [if_pos hq]
        have hstep : combStep cfg kws learned s n =
            on_phrase_completed cfg kws learned s (joinLast n B) := by
          unfold combStep
          rw [hB]
          rw [if_pos hn, if_pos hq]
        have hLp := hL (joinLast n B) (by rw [hphrases]; simp)
        by_cases hhit :
            (check_phrase kws (joinLast n B) cfg.minSimilarity cfg.partialMatching).isEmpty
        · -- submission yields no matches: state unchanged, recurse
          have hopc : on_phrase_completed cfg kws learned s (joinLast n B) = s := by
            unfold on_phrase_completed
            rw [if_neg (by simp [hA]), if_neg (by omega),
              if_neg (by
                simp only [Bool.and_eq_true, Bool.not_eq_true', hW, decide_eq_true_eq]
                intro hcon
                exact hL (joinLast n B) (by rw [hphrases]; simp)
                  ⟨hcon.1.2, by simpa using hcon.2⟩),
              if_neg (by simp [hW]), if_pos hhit]
          simp only [List.foldl_cons, hstep, hopc]
          obtain ⟨h1, h2, h3⟩ := ih s hB hA hF hW
            (fun p hp => hL p (by rw [hphrases]; simp [hp]))
          refine ⟨?_, ?_, h3⟩
          · rw [h1, hphrases]
            unfold hitEmissions hitOption
            rw [List.find?_cons_of_neg _ (by simp [hhit])]
          · rw [h2, hphrases]
            unfold hitOption
            rw [List.find?_cons_of_neg _ (by simp [hhit])]
        · -- submission yields matches: emit once, then the loop is inert
          have hopc : on_phrase_completed cfg kws learned s (joinLast n B) =
              { s with suggestionActive := true,
                       emitted := s.emitted ++ [Emission.suggestionReady (joinLast n B)
                         (check_phrase kws (joinLast n B) cfg.minSimilarity
                           cfg.partialMatching)],
                       forceSuggestMode := false } := by
            unfold on_phrase_completed
            rw [if_neg (by simp [hA]), if_neg (by omega),
              if_neg (by
                simp only [Bool.and_eq_true, Bool.not_eq_true', hW, decide_eq_true_eq]
                intro hcon
                exact hLp ⟨hcon.1.2, by simpa using hcon.2⟩),
              if_neg (by simp [hW]), if_neg hhit]
          simp only [List.foldl_cons, hstep, hopc]
          rw [combStep_foldl_pending_id cfg kws learned rest _ rfl rfl (by simpa using hW)]
          refine ⟨?_, ?_, by simpa using hB⟩
          · rw [hphrases]
            unfold hitEmissions hitOption
            rw [List.find?_cons_of_pos _ (by simp [hhit])]
          · rw [hphrases]
            unfold hitOption
            rw [List.find?_cons_of_pos _ (by simp [hhit])]
            rfl
      · -- joined phrase too short: skipped by the loop and by combPhrasesOf
        have hphrases : combPhrasesOf cfg B (n :: rest) = combPhrasesOf cfg B rest := by
          unfold combPhrasesOf
          rw [List.filter_cons_of_pos (by simpa using hn)]
          rw [List.filterMap_cons]
          rw [if_neg hq]
        have hstep : combStep cfg kws learned s n = s := by
          unfold combStep
          rw [hB]
          rw [if_pos hn, if_neg hq]
        simp only [List.foldl_cons, hstep, hphrases]
        exact ih s hB hA hF hW (fun p hp => hL p (by rw [hphrases]; exact hp))
    · -- window shorter than n: skipped by the loop and by combPhrasesOf
      have hphrases : combPhrasesOf cfg B (n :: rest) = combPhrasesOf cfg B rest := by
        unfold combPhrasesOf
        rw [List.filter_cons_of_neg (by simpa using hn)]
      have hstep : combStep cfg kws learned s n = s := by
        unfold combStep
        rw [hB]
        rw [if_neg hn]
      simp only [List.foldl_cons, hstep, hphrases]
      exact ih s hB hA hF hW (fun p hp => hL p (by rw [hphrases]; exact hp))

/-- Claim C3: on a word-boundary event the combination check submits,
for `n` from `min(4, window length)` down to `1`, the last `n` window
words joined by a single space whenever the joined phrase meets the
configured minimum length (`combPhrases` lists exactly those phrases in
descending-`n` order), and the run emits exactly one suggestion event at
the first submitted phrase whose match list is non-empty — later
submissions are suppressed by the pending flag — or none if no
submission hits; the window itself is unchanged. -/
theorem check_combinations_emits_first_hit (cfg : Config)
    (kws learned : List String) (st : AppState)
    (hA : st.suggestionActive = false) (hF : st.forceSuggestMode = false)
    (hW : st.webSearchMode = false)
    (hL : ∀ p ∈ combPhrases cfg st.phraseBuffer,
      ¬(cfg.enableWordLearning = true ∧ normalize_text p ∈ learned)) :
    (check_combinations cfg kws learned st).emitted =
      st.emitted ++ hitEmissions cfg kws (combPhrases cfg st.phraseBuffer) ∧
    (check_combinations cfg kws learned st).suggestionActive =
      (hitOption cfg kws (combPhrases cfg st.phraseBuffer)).isSome ∧
    (check_combinations cfg kws learned st).phraseBuffer = st.phraseBuffer :=
  combStep_foldl_emits cfg kws learned st.phraseBuffer [4, 3, 2, 1] st rfl hA hF hW hL

/-- Concrete evaluation used by the C3 witness: with keyword "aa bb" and
window ["aa", "bb"], the submitted phrases are exactly ["aa bb"] (the
1-gram "bb" fails the minimum length) and that submission hits. -/
theorem combPhrases_concrete_eval :
    combPhrases (Config.mk 5 3 (mkRat 1 2) true false "search" true true) ["aa", "bb"] =
      ["aa bb"] ∧
    check_phrase ["aa bb"] "aa bb" (mkRat 1 2) true = ["aa bb"] := by
  have hfil : filteredMatches ["aa bb"] "aa bb" (mkRat 1 2) true =
      [("aa bb", mkRat 18 20)] := by decide
  have hsort : sortedMatches ["aa bb"] "aa bb" (mkRat 1 2) true =
      [("aa bb", mkRat 18 20)] := by
    rw [sortedMatches, hfil]
    exact List.mergeSort_singleton _
  constructor
  · decide
  · rw [check_phrase, show normalize_text "aa bb" = "aa bb" from by decide, baseResults,
      show (["aa bb"] : List String).map normalize_text = ["aa bb"] from by decide, hsort]
    decide

/-- Witness for C3 at a concrete idle state: the window ["aa", "bb"]
with keyword list ["aa bb"] submits only the 2-gram and emits exactly
one suggestion for it. -/
theorem check_combinations_emits_first_hit_witness :
    (AppState.mk [] ["aa", "bb"] false false false []).suggestionActive = false ∧
    (∀ p ∈ combPhrases (Config.mk 5 3 (mkRat 1 2) true false "search" true true)
        (AppState.mk [] ["aa", "bb"] false false false []).phraseBuffer,
      ¬((Config.mk 5 3 (mkRat 1 2) true false "search" true true).enableWordLearning = true ∧
        normalize_text p ∈ ([] : List String))) ∧
    (check_combinations (Config.mk 5 3 (mkRat 1 2) true false "search" true true)
      ["aa bb"] [] (AppState.mk [] ["aa", "bb"] false false false [])).emitted =
      [Emission.suggestionReady "aa bb" ["aa bb"]] ∧
    (check_combinations (Config.mk 5 3 (mkRat 1 2) true false "search" true true)
      ["aa bb"] [] (AppState.mk [] ["aa", "bb"] false false false [])).suggestionActive = true ∧
    (check_combinations (Config.mk 5 3 (mkRat 1 2) true false "search" true true)
      ["aa bb"] [] (AppState.mk [] ["aa", "bb"] false false false [])).phraseBuffer =
      ["aa", "bb"] := by
  have hL : ∀ p ∈ combPhrases (Config.mk 5 3 (mkRat 1 2) true false "search" true true)
      (AppState.mk [] ["aa", "bb"] false false false []).phraseBuffer,
      ¬((Config.mk 5 3 (mkRat 1 2) true false "search" true true).enableWordLearning = true ∧
        normalize_text p ∈ ([] : List String)) :=
    fun p _ hcon => List.not_mem_nil _ hcon.2
  obtain ⟨hcomb, hcp⟩ := combPhrases_concrete_eval
  have hcomb' : combPhrases (Config.mk 5 3 (mkRat 1 2) true false "search" true true)
      (AppState.mk [] ["aa", "bb"] false false false []).phraseBuffer = ["aa bb"] := hcomb
  have hcp' : check_phrase ["aa bb"] "aa bb"
      (Config.mk 5 3 (mkRat 1 2) true false "search" true true).minSimilarity
      (Config.mk 5 3 (mkRat 1 2) true false "search" true true).partialMatching =
      ["aa bb"] := hcp
  obtain ⟨h1, h2, h3⟩ := check_combinations_emits_first_hit
    (Config.mk 5 3 (mkRat 1 2) true false "search" true true) ["aa bb"] []
    (AppState.mk [] ["aa", "bb"] false false false []) rfl rfl rfl hL
  have hhitOpt : hitOption (Config.mk 5 3 (mkRat 1 2) true false "search" true true)
      ["aa bb"] (combPhrases (Config.mk 5 3 (mkRat 1 2) true false "search" true true)
        (AppState.mk [] ["aa", "bb"] false false false []).phraseBuffer) = some "aa bb" := by
    rw [hcomb']
    unfold hitOption
    rw [List.find?_cons_of_pos _ (by rw [hcp']; decide)]
  have hhitEm : hitEmissions (Config.mk 5 3 (mkRat 1 2) true false "search" true true)
      ["aa bb"] (combPhrases (Config.mk 5 3 (mkRat 1 2) true false "search" true true)
        (AppState.mk [] ["aa", "bb"] false false false []).phraseBuffer) =
      [Emission.suggestionReady "aa bb" ["aa bb"]] := by
    unfold hitEmissions
    rw [hhitOpt]
    show [Emission.suggestionReady "aa bb" (check_phrase ["aa bb"] "aa bb"
      (Config.mk 5 3 (mkRat 1 2) true false "search" true true).minSimilarity
      (Config.mk 5 3 (mkRat 1 2) true false "search" true true).partialMatching)] = _
    rw [hcp']
  refine ⟨rfl, hL, ?_, ?_, h3⟩
  · rw [h1, hhitEm]
    rfl
  · rw [h2, hhitOpt]
    rfl

/-! ### Claim C7: idempotence of normalization -/

/-- `Char.ofNat` and `Char.toNat` cancel below the surrogate range. -/
theorem toNat_ofNat_of_lt (n : Nat) (h : n < 55296) : (Char.ofNat n).toNat = n := by
  unfold Char.ofNat
  rw [dif_pos (Or.inl h)]
  rfl

/-- The ASCII lower-casing of `Char.toLower` is idempotent. -/
theorem toLower_idem (c : Char) : Char.toLower (Char.toLower c) = Char.toLower c := by
  unfold Char.toLower
  by_cases h : c.toNat ≥ 65 ∧ c.toNat ≤ 90
  · rw [if_pos h]
    have ht : (Char.ofNat (c.toNat + 32)).toNat = c.toNat + 32 :=
      toNat_ofNat_of_lt _ (by omega)
    rw [if_neg (by rw [ht]; omega)]
  · rw [if_neg h, if_neg h]

/-- Word characters are never whitespace. -/
theorem isPySpace_eq_false_of_isWordChar (c : Char) (h : isWordChar c = true) :
    isPySpace c = false := by
  simp only [isWordChar, Bool.or_eq_true, Bool.and_eq_true, decide_eq_true_eq] at h
  simp only [isPySpace, Bool.or_eq_false_iff, decide_eq_false_iff_not]
  omega

/-- Characters produced by lower-casing then punctuation collapsing are
either a space or stable under both maps. -/
theorem punct_lower_stable (x : Char) :
    toSpacePunct (Char.toLower x) = ' ' ∨
    (toSpacePunct (toSpacePunct (Char.toLower x)) = toSpacePunct (Char.toLower x) ∧
     Char.toLower (toSpacePunct (Char.toLower x)) = toSpacePunct (Char.toLower x)) := by
  unfold toSpacePunct
  by_cases h : (Char.toLower x = '-' || Char.toLower x = '_' ||
      Char.toLower x = Char.ofNat 39) = true
  · left
    rw [if_pos h]
  · right
    rw [if_neg h, if_neg h]
    exact ⟨rfl, toLower_idem x⟩

/-- Membership in a collapsed list: every character is the inserted
space or a non-whitespace character of the input. -/
theorem mem_collapseWs : ∀ (l : List Char) (b : Bool) (c : Char),
    c ∈ collapseWs b l → c = ' ' ∨ (c ∈ l ∧ isPySpace c = false) := by
  intro l
  induction l with
  | nil => intro b c h; simp [collapseWs] at h
  | cons d rest ih =>
    intro b c h
    unfold collapseWs at h
    by_cases hd : isPySpace d = true
    · rw [if_pos hd] at h
      by_cases hb : b
      · subst hb
        simp only [if_pos rfl] at h
        rcases ih true c h with h' | h'
        · exact Or.inl h'
        · exact Or.inr ⟨List.mem_cons_of_mem d h'.1, h'.2⟩
      · rw [if_neg hb] at h
        rcases List.mem_cons.mp h with h' | h'
        · exact Or.inl h'
        · rcases ih true c h' with h'' | h''
          · exact Or.inl h''
          · exact Or.inr ⟨List.mem_cons_of_mem d h''.1, h''.2⟩
    · rw [if_neg hd] at h
      rcases List.mem_cons.mp h with h' | h'
      · rw [h']
        exact Or.inr ⟨List.mem_cons_self d rest, by simpa using hd⟩
      · rcases ih false c h' with h'' | h''
        · exact Or.inl h''
        · exact Or.inr ⟨List.mem_cons_of_mem d h''.1, h''.2⟩

/-- Membership passes through `stripChars`. -/
theorem mem_stripChars (l : List Char) (c : Char) (h : c ∈ stripChars l) : c ∈ l := by
  unfold stripChars at h
  rw [List.mem_reverse] at h
  have h1 := (List.dropWhile_sublist isPySpace).subset h
  rw [List.mem_reverse] at h1
  exact (List.dropWhile_sublist isPySpace).subset h1

/-- The head of a collapse in in-run mode is never whitespace. -/
theorem collapseWs_true_head : ∀ (l : List Char) (c : Char) (t : List Char),
    collapseWs true l = c :: t → isPySpace c = false := by
  intro l
  induction l with
  | nil => intro c t h; simp [collapseWs] at h
  | cons d rest ih =>
    intro c t h
    unfold collapseWs at h
    by_cases hd : isPySpace d = true
    · rw [if_pos hd] at h
      simp only [if_pos rfl] at h
      exact ih c t h
    · rw [if_neg hd] at h
      rw [List.cons_eq_cons] at h
      rw [← h.1]
      simpa using hd

/-- The adjacency relation of "no two consecutive whitespace
characters". -/
def NoWsPair (a b : Char) : Prop := ¬(isPySpace a = true ∧ isPySpace b = true)

/-- Collapsed lists contain no two consecutive whitespace characters. -/
theorem chain_collapseWs : ∀ (l : List Char) (b : Bool),
    List.Chain' NoWsPair (collapseWs b l) := by
  intro l
  induction l with
  | nil => intro b; simp [collapseWs, List.chain'_nil]
  | cons d rest ih =>
    intro b
    unfold collapseWs
    by_cases hd : isPySpace d = true
    · rw [if_pos hd]
      by_cases hb : b
      · subst hb
        simpa using ih true
      · rw [if_neg hb]
        rw [List.chain'_cons']
        refine ⟨?_, ih true⟩
        intro y hy
        cases hcol : collapseWs true rest with
        | nil => rw [hcol] at hy; simp at hy
        | cons e t =>
          rw [hcol] at hy
          simp only [List.head?_cons, Option.mem_def, Option.some_inj] at hy
          subst hy
          intro hcon
          rw [collapseWs_true_head rest e t hcol] at hcon
          exact Bool.false_ne_true hcon.2
    · rw [if_neg hd]
      rw [List.chain'_cons']
      refine ⟨?_, ih false⟩
      intro y _
      intro hcon
      rw [hcon.1] at hd
      exact hd rfl

/-- The no-double-whitespace chain survives `dropWhile`. -/
theorem chain_dropWhile (p : Char → Bool) :
    ∀ (l : List Char), List.Chain' NoWsPair l →
    List.Chain' NoWsPair (l.dropWhile p) := by
  intro l
  induction l with
  | nil => intro h; simpa [List.dropWhile]
  | cons d rest ih =>
    intro h
    rw [List.dropWhile_cons]
    split
    · exact ih (List.Chain'.tail h)
    · exact h

/-- `NoWsPair` is symmetric, so the chain survives `reverse`. -/
theorem chain_reverse (l : List Char) (h : List.Chain' NoWsPair l) :
    List.Chain' NoWsPair l.reverse := by
  rw [List.chain'_reverse]
  exact h.imp (fun {a b} hab => fun hcon => hab ⟨hcon.2, hcon.1⟩)

/-- The no-double-whitespace chain survives `stripChars`. -/
theorem chain_stripChars (l : List Char) (h : List.Chain' NoWsPair l) :
    List.Chain' NoWsPair (stripChars l) := by
  unfold stripChars
  exact chain_reverse _ (chain_dropWhile _ _ (chain_reverse _ (chain_dropWhile _ _ h)))

/-- Collapsing is the identity on lists with no whitespace runs whose
whitespace is already the single space character. -/
theorem collapseWs_eq_self : ∀ (l : List Char),
    List.Chain' NoWsPair l → (∀ c ∈ l, isPySpace c = true → c = ' ') →
    collapseWs false l = l ∧
    ((∀ d, l.head? = some d → isPySpace d = false) → collapseWs true l = l) := by
  intro l
  induction l with
  | nil => intro _ _; exact ⟨rfl, fun _ => rfl⟩
  | cons d rest ih =>
    intro hch hsp
    by_cases hd : isPySpace d = true
    · have hd' : d = ' ' := hsp d (List.mem_cons_self d rest) hd
      have hrest_head : ∀ e, rest.head? = some e → isPySpace e = false := by
        intro e he
        cases rest with
        | nil => simp at he
        | cons e' t =>
          simp only [List.head?_cons, Option.some_inj] at he
          rw [← he]
          have hpair := (List.chain'_cons.mp hch).1
          by_cases hsp' : isPySpace e' = true
          · exact absurd ⟨hd, hsp'⟩ hpair
          · simpa using hsp'
      obtain ⟨h1, h2⟩ := ih (List.Chain'.tail hch)
        (fun c hc hc' => hsp c (List.mem_cons_of_mem d hc) hc')
      constructor
      · show collapseWs false (d :: rest) = d :: rest
        unfold collapseWs
        rw [if_pos hd, if_neg Bool.false_ne_true, h2 hrest_head, hd']
      · intro hhead
        have := hhead d (by simp)
        rw [this] at hd
        exact absurd hd (by simp)
    · obtain ⟨h1, h2⟩ := ih (List.Chain'.tail hch)
        (fun c hc hc' => hsp c (List.mem_cons_of_mem d hc) hc')
      have hcol : ∀ b : Bool, collapseWs b (d :: rest) = d :: collapseWs false rest := by
        intro b
        simp only [collapseWs]
        rw [if_neg hd]
      refine ⟨?_, fun _ => ?_⟩ <;> rw [hcol, h1]

/-- `dropWhile` is the identity when the head fails the predicate. -/
theorem dropWhile_eq_self_of_head (p : Char → Bool) (l : List Char)
    (h : ∀ d, l.head? = some d → p d = false) : l.dropWhile p = l := by
  cases l with
  | nil => rfl
  | cons d rest =>
    rw [List.dropWhile_cons, if_neg (by rw [h d rfl]; simp)]

/-- `dropWhile` leaves either the empty list or a list whose head fails
the predicate. -/
theorem dropWhile_head_false (p : Char → Bool) : ∀ (l : List Char) (d : Char)
    (t : List Char), l.dropWhile p = d :: t → p d = false := by
  intro l
  induction l with
  | nil => intro d t h; simp at h
  | cons e rest ih =>
    intro d t h
    rw [List.dropWhile_cons] at h
    split at h
    · exact ih d t h
    · rw [List.cons_eq_cons] at h
      rw [← h.1]
      exact (Bool.not_eq_true _) ▸ ‹¬_›

/-- `dropWhile` preserves the last element when the result is
non-empty. -/
theorem getLast?_dropWhile (p : Char → Bool) : ∀ (l : List Char),
    l.dropWhile p ≠ [] → (l.dropWhile p).getLast? = l.getLast? := by
  intro l
  induction l with
  | nil => intro h; simp [List.dropWhile] at h
  | cons d rest ih =>
    intro h
    rw [List.dropWhile_cons]
    split
    · rename_i hp
      rw [List.dropWhile_cons, if_pos hp] at h
      rw [ih h]
      have hrest : rest ≠ [] := by
        intro hcon
        rw [hcon] at h
        simp [List.dropWhile] at h
      cases rest with
      | nil => exact absurd rfl hrest
      | cons y t => rw [List.getLast?_cons_cons]
    · rfl

/-- Stripping is idempotent. -/
theorem stripChars_idem (l : List Char) : stripChars (stripChars l) = stripChars l := by
  by_cases h2 : (l.dropWhile isPySpace).reverse.dropWhile isPySpace = []
  · unfold stripChars
    rw [h2]
    rfl
  · have hhead0 : ∀ d, ((l.dropWhile isPySpace).reverse.dropWhile isPySpace).head? = some d →
        isPySpace d = false := by
      intro d hd
      cases hs : (l.dropWhile isPySpace).reverse.dropWhile isPySpace with
      | nil => rw [hs] at hd; simp at hd
      | cons e t =>
        rw [hs] at hd
        simp only [List.head?_cons, Option.some_inj] at hd
        rw [← hd]
        exact dropWhile_head_false isPySpace _ e t hs
    have hlast0 : ∀ d, ((l.dropWhile isPySpace).reverse.dropWhile isPySpace).getLast? =
        some d → isPySpace d = false := by
      intro d hd
      rw [getLast?_dropWhile isPySpace _ h2] at hd
      rw [List.getLast?_reverse] at hd
      cases hs : l.dropWhile isPySpace with
      | nil => rw [hs] at hd; simp at hd
      | cons e t =>
        rw [hs] at hd
        simp only [List.head?_cons, Option.some_inj] at hd
        rw [← hd]
        exact dropWhile_head_false isPySpace l e t hs
    show stripChars (((l.dropWhile isPySpace).reverse.dropWhile isPySpace).reverse) = _
    unfold stripChars
    rw [dropWhile_eq_self_of_head isPySpace
      (((l.dropWhile isPySpace).reverse.dropWhile isPySpace).reverse)
      (by
        intro d hd
        rw [List.head?_reverse] at hd
        exact hlast0 d hd)]
    rw [List.reverse_reverse]
    rw [dropWhile_eq_self_of_head isPySpace
      ((l.dropWhile isPySpace).reverse.dropWhile isPySpace) hhead0]

/-- Every character of `normList s` is stable under the lower-casing and
punctuation maps, passes the word/space filter, and is the plain space
when it is whitespace. -/
theorem normList_char_spec (s : List Char) (c : Char) (hc : c ∈ normList s) :
    toSpacePunct c = c ∧ Char.toLower c = c ∧
    (isWordChar c || isPySpace c) = true ∧ (isPySpace c = true → c = ' ') := by
  unfold normList at hc
  have hc1 := mem_stripChars _ _ hc
  rcases mem_collapseWs _ _ _ hc1 with hsp | ⟨hmem, hnsp⟩
  · subst hsp
    refine ⟨by decide, by decide, by decide, fun _ => rfl⟩
  · obtain ⟨hfil, hpred⟩ := List.mem_filter.mp hmem
    obtain ⟨y, hy, hyc⟩ := List.mem_map.mp hfil
    obtain ⟨x, hx, hxy⟩ := List.mem_map.mp hy
    have hprov : c = toSpacePunct (Char.toLower x) := by rw [← hyc, ← hxy]
    rcases punct_lower_stable x with h | ⟨h1, h2⟩
    · rw [← hprov] at h
      rw [h] at hnsp
      exact absurd hnsp (by decide)
    · rw [← hprov] at h1 h2
      exact ⟨h1, h2, hpred, fun hcon => absurd hcon (by simp [hnsp])⟩

/-- Whitespace characters of `normList s` are the space character. -/
theorem normList_space_spec (s : List Char) (c : Char) (hc : c ∈ normList s)
    (hsp : isPySpace c = true) : c = ' ' :=
  (normList_char_spec s c hc).2.2.2 hsp

/-- `normList` output carries the no-double-whitespace chain. -/
theorem normList_chain (s : List Char) : List.Chain' NoWsPair (normList s) := by
  unfold normList
  exact chain_stripChars _ (chain_collapseWs _ _)

/-- Mapping the identity over a list via a pointwise-stable function. -/
theorem map_eq_self_of_stable (f : Char → Char) : ∀ (l : List Char),
    (∀ c ∈ l, f c = c) → l.map f = l := by
  intro l
  induction l with
  | nil => intro _; rfl
  | cons d rest ih =>
    intro h
    rw [List.map_cons, h d (by simp), ih (fun c hc => h c (by simp [hc]))]

/-- Claim C7: `normalize_text` is idempotent — normalizing an already
normalized string changes nothing. -/
theorem normalize_text_idem (s : String) :
    normalize_text (normalize_text s) = normalize_text s := by
  unfold normalize_text
  congr 1
  show normList (normList s.data) = normList s.data
  have hmap1 : (normList s.data).map Char.toLower = normList s.data :=
    map_eq_self_of_stable _ _ (fun c hc => (normList_char_spec s.data c hc).2.1)
  have hmap2 : (normList s.data).map toSpacePunct = normList s.data :=
    map_eq_self_of_stable _ _ (fun c hc => (normList_char_spec s.data c hc).1)
  have hfil : (normList s.data).filter (fun c => isWordChar c || isPySpace c) =
      normList s.data :=
    List.filter_eq_self.mpr (fun c hc => by
      have := (normList_char_spec s.data c hc).2.2.1
      simpa using this)
  conv_lhs => rw [normList]
  rw [hmap1, hmap2, hfil]
  rw [(collapseWs_eq_self (normList s.data) (normList_chain s.data)
    (normList_space_spec s.data)).1]
  show stripChars (stripChars (collapseWs false
    (((s.data.map Char.toLower).map toSpacePunct).filter
      (fun c => isWordChar c || isPySpace c)))) = _
  rw [stripChars_idem]
  rfl

/-! ### Shared facts about the match pipeline (claims C5 and C6) -/

/-- Every pair of `updMax acc pr` is a pair of `acc` or `pr` itself:
the updated entry stores either the old or the new score. -/
theorem updMax_mem : ∀ (acc : List (String × Rat)) (pr x : String × Rat),
    x ∈ updMax acc pr → x ∈ acc ∨ x = pr := by
  intro acc
  induction acc with
  | nil =>
    intro pr x h
    simp only [updMax, List.mem_singleton] at h
    exact Or.inr h
  | cons hd rest ih =>
    intro pr x h
    obtain ⟨q, t⟩ := hd
    obtain ⟨p, s⟩ := pr
    unfold updMax at h
    split at h
    · rename_i hq
      rcases List.mem_cons.mp h with h' | h'
      · by_cases hts : t < s
        · rw [if_pos hts] at h'
          right
          rw [h', hq]
        · rw [if_neg hts] at h'
          left
          rw [h']
          exact List.mem_cons_self _ _
      · exact Or.inl (List.mem_cons_of_mem _ h')
    · rcases List.mem_cons.mp h with h' | h'
      · exact Or.inl (by rw [h']; exact List.mem_cons_self _ _)
      · rcases ih (p, s) x h' with h'' | h''
        · exact Or.inl (List.mem_cons_of_mem _ h'')
        · exact Or.inr h''

/-- Keys of `updMax acc pr` are the keys of `acc` plus `pr`'s key. -/
theorem updMax_keys : ∀ (acc : List (String × Rat)) (pr : String × Rat) (q : String),
    q ∈ (updMax acc pr).map Prod.fst ↔ q ∈ acc.map Prod.fst ∨ q = pr.1 := by
  intro acc
  induction acc with
  | nil =>
    intro pr q
    simp [updMax]
  | cons hd rest ih =>
    intro pr q
    obtain ⟨q₀, t₀⟩ := hd
    obtain ⟨p, s⟩ := pr
    unfold updMax
    split
    · rename_i hq
      subst hq
      split <;> (simp only [List.map_cons, List.mem_cons]; tauto)
    · rename_i hq
      have hrest := ih (p, s) q
      simp only [List.map_cons, List.mem_cons] at hrest ⊢
      tauto

/-- `updMax` keeps the key list duplicate-free. -/
theorem updMax_nodup : ∀ (acc : List (String × Rat)) (pr : String × Rat),
    (acc.map Prod.fst).Nodup → ((updMax acc pr).map Prod.fst).Nodup := by
  intro acc
  induction acc with
  | nil =>
    intro pr _
    simp [updMax]
  | cons hd rest ih =>
    intro pr hnd
    obtain ⟨q₀, t₀⟩ := hd
    obtain ⟨p, s⟩ := pr
    simp only [List.map_cons, List.nodup_cons] at hnd
    unfold updMax
    split
    · rename_i hq
      subst hq
      split <;> (simp only [List.map_cons, List.nodup_cons]; exact hnd)
    · rename_i hq
      simp only [List.map_cons, List.nodup_cons]
      refine ⟨?_, ih (p, s) hnd.2⟩
      intro hcon
      rcases (updMax_keys rest (p, s) q₀).mp hcon with h' | h'
      · exact hnd.1 h'
      · exact hq h'

/-- An existing pair keeps at least its score through `updMax`. -/
theorem updMax_le : ∀ (acc : List (String × Rat)) (pr : String × Rat)
    (q : String) (s : Rat), (q, s) ∈ acc →
    ∃ s', s ≤ s' ∧ (q, s') ∈ updMax acc pr := by
  intro acc
  induction acc with
  | nil => intro pr q s h; simp at h
  | cons hd rest ih =>
    intro pr q s h
    obtain ⟨q₀, t₀⟩ := hd
    obtain ⟨p, sp⟩ := pr
    unfold updMax
    split
    · rename_i hq
      rcases List.mem_cons.mp h with h' | h'
      · rw [Prod.mk.injEq] at h'
        refine ⟨if t₀ < sp then sp else t₀, ?_, ?_⟩
        · split
          · rename_i hts
            rw [h'.2]
            exact le_of_lt hts
          · exact le_of_eq h'.2
        · rw [← h'.1]
          exact List.mem_cons_self _ _
      · exact ⟨s, le_refl s, List.mem_cons_of_mem _ h'⟩
    · rcases List.mem_cons.mp h with h' | h'
      · exact ⟨s, le_refl s, by rw [h']; exact List.mem_cons_self _ _⟩
      · obtain ⟨s', hs', hmem⟩ := ih (p, sp) q s h'
        exact ⟨s', hs', List.mem_cons_of_mem _ hmem⟩

/-- The inserted pair's key ends with at least the inserted score. -/
theorem updMax_new : ∀ (acc : List (String × Rat)) (pr : String × Rat),
    ∃ s', pr.2 ≤ s' ∧ (pr.1, s') ∈ updMax acc pr := by
  intro acc
  induction acc with
  | nil =>
    intro pr
    exact ⟨pr.2, le_refl _, by simp [updMax]⟩
  | cons hd rest ih =>
    intro pr
    obtain ⟨q₀, t₀⟩ := hd
    obtain ⟨p, sp⟩ := pr
    unfold updMax
    split
    · rename_i hq
      refine ⟨if t₀ < sp then sp else t₀, ?_, ?_⟩
      · split
        · exact le_refl _
        · rename_i hts
          exact le_of_not_lt hts
      · rw [← hq]
        exact List.mem_cons_self _ _
    · obtain ⟨s', hs', hmem⟩ := ih (p, sp)
      exact ⟨s', hs', List.mem_cons_of_mem _ hmem⟩

/-- Every pair of the folded accumulator comes from the accumulator or
the processed list. -/
theorem foldl_updMax_mem : ∀ (ms acc : List (String × Rat)) (x : String × Rat),
    x ∈ ms.foldl updMax acc → x ∈ acc ∨ x ∈ ms := by
  intro ms
  induction ms with
  | nil => intro acc x h; exact Or.inl h
  | cons pr rest ih =>
    intro acc x h
    rcases ih (updMax acc pr) x h with h' | h'
    · rcases updMax_mem acc pr x h' with h'' | h''
      · exact Or.inl h''
      · exact Or.inr (by rw [h'']; exact List.mem_cons_self _ _)
    · exact Or.inr (List.mem_cons_of_mem _ h')

/-- Every stored pair of `unique_matches` is one of the raw matches. -/
theorem uniqueMatches_mem (ms : List (String × Rat)) (x : String × Rat)
    (h : x ∈ uniqueMatches ms) : x ∈ ms := by
  rcases foldl_updMax_mem ms [] x h with h' | h'
  · simp at h'
  · exact h'

/-- The folded accumulator's key list stays duplicate-free. -/
theorem foldl_updMax_nodup : ∀ (ms acc : List (String × Rat)),
    (acc.map Prod.fst).Nodup → ((ms.foldl updMax acc).map Prod.fst).Nodup := by
  intro ms
  induction ms with
  | nil => intro acc h; exact h
  | cons pr rest ih =>
    intro acc h
    exact ih (updMax acc pr) (updMax_nodup acc pr h)

/-- `unique_matches` has duplicate-free keys. -/
theorem uniqueMatches_nodup (ms : List (String × Rat)) :
    ((uniqueMatches ms).map Prod.fst).Nodup :=
  foldl_updMax_nodup ms [] (by simp)

/-- Scores never decrease through the fold. -/
theorem foldl_updMax_le : ∀ (ms acc : List (String × Rat)) (q : String) (s : Rat),
    ((q, s) ∈ acc ∨ (q, s) ∈ ms) →
    ∃ s', s ≤ s' ∧ (q, s') ∈ ms.foldl updMax acc := by
  intro ms
  induction ms with
  | nil =>
    intro acc q s h
    rcases h with h | h
    · exact ⟨s, le_refl s, h⟩
    · simp at h
  | cons pr rest ih =>
    intro acc q s h
    rcases h with h | h
    · obtain ⟨s₁, hs₁, hmem₁⟩ := updMax_le acc pr q s h
      obtain ⟨s₂, hs₂, hmem₂⟩ := ih (updMax acc pr) q s₁ (Or.inl hmem₁)
      exact ⟨s₂, le_trans hs₁ hs₂, hmem₂⟩
    · rcases List.mem_cons.mp h with h' | h'
      · obtain ⟨s₁, hs₁, hmem₁⟩ := updMax_new acc pr
        rw [← h'] at hs₁ hmem₁
        obtain ⟨s₂, hs₂, hmem₂⟩ := ih (updMax acc (q, s)) q s₁ (Or.inl hmem₁)
        rw [← h']
        exact ⟨s₂, le_trans hs₁ hs₂, hmem₂⟩
      · exact ih (updMax acc pr) q s (Or.inr h')

/-- Every raw match survives into `unique_matches` with at least its
score. -/
theorem uniqueMatches_le (ms : List (String × Rat)) (q : String) (s : Rat)
    (h : (q, s) ∈ ms) : ∃ s', s ≤ s' ∧ (q, s') ∈ uniqueMatches ms :=
  foldl_updMax_le ms [] q s (Or.inr h)

/-- A longest common subsequence is no longer than either input. -/
theorem lcsLen_le : ∀ (n : Nat) (a b : List Char), a.length + b.length ≤ n →
    lcsLen a b ≤ a.length ∧ lcsLen a b ≤ b.length := by
  intro n
  induction n with
  | zero =>
    intro a b h
    match a, b with
    | [], [] => simp [lcsLen]
    | [], _ :: _ => simp at h
    | _ :: _, _ => simp at h
  | succ n ih =>
    intro a b h
    match a, b with
    | [], _ => simp [lcsLen]
    | _ :: _, [] => rw [lcsLen]; simp
    | x :: as, y :: bs =>
      rw [lcsLen]
      simp only [List.length_cons] at h ⊢
      split
      · obtain ⟨h1, h2⟩ := ih as bs (by omega)
        omega
      · obtain ⟨h1, h2⟩ := ih (x :: as) bs (by simp; omega)
        obtain ⟨h3, h4⟩ := ih as (y :: bs) (by simp; omega)
        simp only [List.length_cons] at h1 h2 h3 h4
        constructor
        · exact max_le (by omega) (by omega)
        · exact max_le (by omega) (by omega)

/-- A full-length common subsequence forces the lists to be equal. -/
theorem lcsLen_full : ∀ (n : Nat) (a b : List Char), a.length + b.length ≤ n →
    lcsLen a b = a.length → lcsLen a b = b.length → a = b := by
  intro n
  induction n with
  | zero =>
    intro a b h _ _
    match a, b with
    | [], [] => rfl
    | [], _ :: _ => simp at h
    | _ :: _, _ => simp at h
  | succ n ih =>
    intro a b h ha hb
    match a, b with
    | [], [] => rfl
    | [], y :: bs =>
      rw [lcsLen] at hb
      simp at hb
    | x :: as, [] =>
      rw [lcsLen] at ha
      simp at ha
    | x :: as, y :: bs =>
      rw [lcsLen] at ha hb
      simp only [List.length_cons] at h ha hb
      by_cases hxy : x = y
      · rw [if_pos hxy] at ha hb
        rw [hxy, ih as bs (by omega) (by omega) (by omega)]
      · rw [if_neg hxy] at ha hb
        obtain ⟨h1, h2⟩ := lcsLen_le (n + 1) (x :: as) bs (by simp; omega)
        obtain ⟨h3, h4⟩ := lcsLen_le (n + 1) as (y :: bs) (by simp; omega)
        simp only [List.length_cons] at h1 h2 h3 h4
        rcases max_choice (lcsLen (x :: as) bs) (lcsLen as (y :: bs)) with hm | hm <;>
          rw [hm] at ha hb <;> omega

/-- The similarity ratio never exceeds 1. -/
theorem seqRatio_le_one (a b : String) : seqRatio a b ≤ 1 := by
  unfold seqRatio
  split
  · exact le_refl 1
  · rename_i hz
    obtain ⟨h1, h2⟩ := lcsLen_le (a.data.length + b.data.length) a.data b.data (le_refl _)
    have hpos : (0 : Rat) < ((a.data.length + b.data.length : Nat) : Rat) := by
      have : 0 < a.data.length + b.data.length := Nat.pos_of_ne_zero hz
      exact_mod_cast this
    rw [Rat.mkRat_eq_div, div_le_one hpos]
    have hnat : 2 * lcsLen a.data b.data ≤ a.data.length + b.data.length := by omega
    push_cast
    exact_mod_cast hnat

/-- The similarity ratio of two distinct strings is strictly below 1. -/
theorem seqRatio_lt_one (a b : String) (hne : a ≠ b) : seqRatio a b < 1 := by
  unfold seqRatio
  split
  · rename_i hz
    exfalso
    have ha : a.data = [] := by
      cases hd : a.data with
      | nil => rfl
      | cons x xs => rw [hd] at hz; simp at hz
    have hb : b.data = [] := by
      cases hd : b.data with
      | nil => rfl
      | cons x xs => rw [hd] at hz; simp at hz
    apply hne
    have hdata : a.data = b.data := by rw [ha, hb]
    cases a
    cases b
    exact congrArg String.mk hdata
  · rename_i hz
    obtain ⟨h1, h2⟩ := lcsLen_le (a.data.length + b.data.length) a.data b.data (le_refl _)
    have hpos : (0 : Rat) < ((a.data.length + b.data.length : Nat) : Rat) := by
      have : 0 < a.data.length + b.data.length := Nat.pos_of_ne_zero hz
      exact_mod_cast this
    rw [Rat.mkRat_eq_div, div_lt_one hpos]
    have hstrict : 2 * lcsLen a.data b.data < a.data.length + b.data.length := by
      rcases Nat.lt_or_ge (2 * lcsLen a.data b.data) (a.data.length + b.data.length) with h | h
      · exact h
      · exfalso
        have hla : lcsLen a.data b.data = a.data.length := by omega
        have hlb : lcsLen a.data b.data = b.data.length := by omega
        have := lcsLen_full (a.data.length + b.data.length) a.data b.data (le_refl _) hla hlb
        apply hne
        cases a
        cases b
        exact congrArg String.mk this
    push_cast
    exact_mod_cast hstrict

/-- Characterization of the prefix-strategy pairs. -/
theorem startMatches_pair (K : List String) (norm : String) (pr : String × Rat)
    (h : pr ∈ startMatches K norm) :
    pr.2 = 1 ∧ pr.1 ∈ K ∧ pyStarts pr.1 norm = true ∧ pr.1 ≠ norm := by
  unfold startMatches at h
  obtain ⟨k, hk, hpr⟩ := List.mem_map.mp h
  obtain ⟨hkK, hcond⟩ := List.mem_filter.mp hk
  simp only [Bool.and_eq_true, bne_iff_ne] at hcond
  rw [← hpr]
  exact ⟨rfl, hkK, hcond.1, hcond.2⟩

/-- A qualifying keyword produces its prefix-strategy pair. -/
theorem startMatches_mem_of (K : List String) (norm k : String) (hk : k ∈ K)
    (hst : pyStarts k norm = true) (hne : k ≠ norm) :
    (k, (1 : Rat)) ∈ startMatches K norm := by
  unfold startMatches
  exact List.mem_map.mpr ⟨k, List.mem_filter.mpr ⟨hk, by simp [hst, hne]⟩, rfl⟩

/-- Characterization of the partial-word-strategy pairs: the key is an
indexed phrase and the score stays at most 1. -/
theorem partialScores_pair (K : List String) (norm : String) (pr : String × Rat)
    (h : pr ∈ partialScores K norm) : pr.1 ∈ K ∧ pr.2 ≤ 1 := by
  simp only [partialScores] at h
  split at h
  · simp at h
  · rename_i hne
    simp only [List.mem_filterMap] at h
    obtain ⟨cand, hcand, hsome⟩ := h
    split at hsome
    · rename_i hsc
      rw [Option.some_inj] at hsome
      have hK : cand ∈ K := by
        obtain ⟨w, _, hw⟩ := List.mem_flatMap.mp (List.mem_dedup.mp hcand)
        unfold wordBucket at hw
        exact (List.mem_filter.mp (List.mem_dedup.mp hw)).1
      have hcle : ((pySplit norm).dedup.filter
          (fun w => (pySplit cand).contains w)).length ≤ (pySplit norm).length :=
        le_trans (List.length_filter_le _ _) ((List.dedup_sublist _).length_le)
      have hn : 0 < (pySplit norm).length := by
        cases hl : pySplit norm with
        | nil => rw [hl] at hne; simp at hne
        | cons w ws => simp [hl]
      rw [← hsome]
      refine ⟨hK, ?_⟩
      have hpos : (0 : Rat) < ((10 * (pySplit norm).length : Nat) : Rat) := by
        have h10 : 0 < 10 * (pySplit norm).length := by omega
        exact_mod_cast h10
      show mkRat (9 * (((pySplit norm).dedup.filter
        (fun w => (pySplit cand).contains w)).length : Int)) (10 * (pySplit norm).length) ≤ 1
      rw [Rat.mkRat_eq_div, div_le_one hpos]
      have hnat : 9 * ((pySplit norm).dedup.filter
          (fun w => (pySplit cand).contains w)).length ≤ 10 * (pySplit norm).length := by
        omega
      push_cast
      exact_mod_cast hnat
    · simp at hsome

/-- Characterization of the similarity-strategy pairs. -/
theorem similarityScores_pair (K : List String) (norm : String) (pr : String × Rat)
    (h : pr ∈ similarityScores K norm) :
    pr.1 ∈ K ∧ pr.1 ≠ norm ∧ pr.2 = seqRatio norm pr.1 := by
  unfold similarityScores at h
  obtain ⟨k, hk, hpr⟩ := List.mem_map.mp h
  obtain ⟨hkK, hcond⟩ := List.mem_filter.mp hk
  simp only [bne_iff_ne] at hcond
  rw [← hpr]
  exact ⟨hkK, hcond, rfl⟩

/-- Every raw match names an indexed phrase. -/
theorem allMatches_fst_mem (K : List String) (norm : String) (pm : Bool)
    (pr : String × Rat) (h : pr ∈ allMatches K norm pm) : pr.1 ∈ K := by
  unfold allMatches at h
  rcases List.mem_append.mp h with h' | h'
  · rcases List.mem_append.mp h' with h'' | h''
    · exact (startMatches_pair K norm pr h'').2.1
    · split at h''
      · exact (partialScores_pair K norm pr h'').1
      · simp at h''
  · exact (similarityScores_pair K norm pr h').1

/-- Every raw match scores at most 1. -/
theorem allMatches_snd_le_one (K : List String) (norm : String) (pm : Bool)
    (pr : String × Rat) (h : pr ∈ allMatches K norm pm) : pr.2 ≤ 1 := by
  unfold allMatches at h
  rcases List.mem_append.mp h with h' | h'
  · rcases List.mem_append.mp h' with h'' | h''
    · exact le_of_eq (startMatches_pair K norm pr h'').1
    · split at h''
      · exact (partialScores_pair K norm pr h'').2
      · simp at h''
  · rw [(similarityScores_pair K norm pr h').2.2]
    exact seqRatio_le_one norm pr.1

/-- The stored original of an indexed phrase normalizes back to it. -/
theorem normalize_originalOf (kws : List String) (k : String)
    (hk : k ∈ kws.map normalize_text) : normalize_text (originalOf kws k) = k := by
  obtain ⟨o, ho, hok⟩ := List.mem_map.mp hk
  have hmem : o ∈ kws.filter (fun v => normalize_text v == k) :=
    List.mem_filter.mpr ⟨ho, by simp [hok]⟩
  have hne : kws.filter (fun v => normalize_text v == k) ≠ [] :=
    List.ne_nil_of_mem hmem
  have h2 := (List.mem_filter.mp (List.getLast_mem hne)).2
  unfold originalOf
  rw [List.getLast?_eq_getLast _ hne, Option.getD_some]
  exact eq_of_beq h2

/-- The original map is injective on the indexed phrases. -/
theorem originalOf_inj (kws : List String) (k₁ k₂ : String)
    (h₁ : k₁ ∈ kws.map normalize_text) (h₂ : k₂ ∈ kws.map normalize_text)
    (he : originalOf kws k₁ = originalOf kws k₂) : k₁ = k₂ := by
  rw [← normalize_originalOf kws k₁ h₁, he, normalize_originalOf kws k₂ h₂]

/-- The size of the phrase index: the number of distinct normalized
keyword phrases (duplicate normalizations collapse onto one index entry,
the last-loaded original winning). -/
def indexSize (kws : List String) : Nat :=
  ((kws.map normalize_text).dedup).length

/-- Splitting a list by a predicate preserves the length. -/
theorem length_filter_not_filter (l : List String) (pf : String → Bool) :
    l.length = (l.filter pf).length + (l.filter (fun k => !(pf k))).length := by
  induction l with
  | nil => rfl
  | cons a as ih =>
    cases hpa : pf a with
    | true => simp [List.filter_cons, hpa]; omega
    | false => simp [List.filter_cons, hpa]; omega

/-- Any result list misses at most `results.length` distinct index
entries: every other original survives the padding filter. -/
theorem indexSize_le_pad (kws : List String) (results : List String) :
    indexSize kws ≤ results.length +
      (((kws.map normalize_text).map (originalOf kws)).filter
        (fun o => !(results.contains o))).length := by
  have hsplit := length_filter_not_filter ((kws.map normalize_text).dedup)
    (fun k => results.contains (originalOf kws k))
  have hin : (((kws.map normalize_text).dedup).filter
      (fun k => results.contains (originalOf kws k))).length ≤ results.length := by
    have hnd : ((((kws.map normalize_text).dedup).filter
        (fun k => results.contains (originalOf kws k))).map (originalOf kws)).Nodup :=
      List.Nodup.map_on
        (fun k₁ h₁ k₂ h₂ he => originalOf_inj kws k₁ k₂
          (List.mem_dedup.mp (List.mem_filter.mp h₁).1)
          (List.mem_dedup.mp (List.mem_filter.mp h₂).1) he)
        (List.Nodup.filter _ (List.nodup_dedup (kws.map normalize_text)))
    have hsub : ((((kws.map normalize_text).dedup).filter
        (fun k => results.contains (originalOf kws k))).map (originalOf kws)) ⊆ results := by
      intro o ho
      obtain ⟨k, hk, hko⟩ := List.mem_map.mp ho
      have hp := (List.mem_filter.mp hk).2
      rw [← hko]
      exact List.mem_of_elem_eq_true hp
    have hle := (List.Nodup.subperm hnd hsub).length_le
    rw [List.length_map] at hle
    exact hle
  have hout : (((kws.map normalize_text).dedup).filter
      (fun k => !(results.contains (originalOf kws k)))).length ≤
      (((kws.map normalize_text).map (originalOf kws)).filter
        (fun o => !(results.contains o))).length := by
    rw [List.filter_map, List.length_map]
    exact List.Sublist.length_le
      (List.Sublist.filter _ (List.dedup_sublist (kws.map normalize_text)))
  unfold indexSize
  omega

/-- C5: for every keyword list and every query, `check_phrase` at
similarity threshold 1 with partial matching disabled returns at least
`min MIN_SUGGESTIONS (indexSize - 1)` results: the pad step tops the
list up from the index even when nothing matches. -/
theorem check_phrase_padding_guarantee (kws : List String) (q : String) :
    min MIN_SUGGESTIONS (indexSize kws - 1) ≤ (check_phrase kws q 1 false).length := by
  have hd := indexSize_le_pad kws (baseResults kws (normalize_text q) 1 false)
  unfold check_phrase padResults
  split
  · rename_i hlt
    rw [List.length_append, List.length_take]
    simp only [MIN_SUGGESTIONS] at hlt ⊢
    omega
  · rename_i hge
    simp only [MIN_SUGGESTIONS, not_lt] at hge ⊢
    omega

/-- The merged score `unique_matches[p]` of `check_phrase` (main.py
lines 228-231), read off the collapsed match list as an association-list
lookup. -/
def mergedScore (kws : List String) (phrase : String) (pm : Bool) (p : String) : Option Rat :=
  (uniqueMatches (allMatches (kws.map normalize_text) (normalize_text phrase) pm)).lookup p

/-- Lookup in an association list with distinct keys finds the stored
pair. -/
theorem lookup_eq_of_mem : ∀ (l : List (String × Rat)) (k : String) (v : Rat),
    (l.map Prod.fst).Nodup → (k, v) ∈ l → l.lookup k = some v := by
  intro l
  induction l with
  | nil => intro k v _ hm; simp at hm
  | cons a as ih =>
    intro k v hnd hm
    obtain ⟨a1, a2⟩ := a
    simp only [List.map_cons, List.nodup_cons] at hnd
    rcases List.mem_cons.mp hm with he | hm'
    · rw [Prod.mk.injEq] at he
      rw [he.1, he.2, List.lookup_cons_self]
    · have hka : (k == a1) = false := by
        rw [beq_eq_false_iff_ne]
        intro hk
        exact hnd.1 (List.mem_map.mpr ⟨(k, v), hm', hk⟩)
      rw [List.lookup_cons, hka]
      exact ih k v hnd.2 hm'

/-- A phrase the normalized query strictly starts appears in the
collapsed match list with merged score exactly 1. -/
theorem uniqueMatches_startsWith_one (K : List String) (norm : String) (pm : Bool)
    (p : String) (hp : p ∈ K) (hst : pyStarts p norm = true) (hne : p ≠ norm) :
    (p, (1 : Rat)) ∈ uniqueMatches (allMatches K norm pm) := by
  have hpm : (p, (1 : Rat)) ∈ allMatches K norm pm := by
    unfold allMatches
    exact List.mem_append.mpr (Or.inl (List.mem_append.mpr
      (Or.inl (startMatches_mem_of K norm p hp hst hne))))
  obtain ⟨s', hs1, hsm⟩ := uniqueMatches_le _ p 1 hpm
  have hs2 : s' ≤ 1 :=
    allMatches_snd_le_one K norm pm (p, s') (uniqueMatches_mem _ _ hsm)
  have hs : s' = 1 := le_antisymm hs2 hs1
  rw [hs] at hsm
  exact hsm

/-- A phrase scored by neither the exact-prefix strategy nor the
partial-word strategy scores strictly below 1. -/
theorem sim_only_score_lt_one (K : List String) (norm : String) (pm : Bool)
    (r : String) (s : Rat)
    (hrs : r ∉ (startMatches K norm).map Prod.fst)
    (hrp : r ∉ (partialScores K norm).map Prod.fst)
    (h : (r, s) ∈ allMatches K norm pm) : s < 1 := by
  unfold allMatches at h
  rcases List.mem_append.mp h with h' | h'
  · rcases List.mem_append.mp h' with h'' | h''
    · exact absurd (List.mem_map.mpr ⟨(r, s), h'', rfl⟩) hrs
    · split at h''
      · exact absurd (List.mem_map.mpr ⟨(r, s), h'', rfl⟩) hrp
      · simp at h''
  · obtain ⟨_, hrn, hs⟩ := similarityScores_pair K norm (r, s) h'
    have hs' : s = seqRatio norm r := hs
    rw [hs']
    exact seqRatio_lt_one norm r (fun hh => hrn hh.symm)

/-- The sort key order is transitive. -/
theorem sortKeyLE_trans (a b c : String × Rat) (hab : sortKeyLE a b = true)
    (hbc : sortKeyLE b c = true) : sortKeyLE a c = true := by
  simp only [sortKeyLE, Bool.or_eq_true, Bool.and_eq_true, decide_eq_true_eq] at hab hbc ⊢
  rcases hab with h1 | ⟨h1, h2⟩ <;> rcases hbc with h3 | ⟨h3, h4⟩
  · exact Or.inl (lt_trans h3 h1)
  · exact Or.inl (by rw [← h3]; exact h1)
  · exact Or.inl (by rw [h1]; exact h3)
  · exact Or.inr ⟨h1.trans h3, le_trans h2 h4⟩

/-- The sort key order is total. -/
theorem sortKeyLE_total (a b : String × Rat) : (sortKeyLE a b || sortKeyLE b a) = true := by
  simp only [sortKeyLE, Bool.or_eq_true, Bool.and_eq_true, decide_eq_true_eq]
  rcases lt_trichotomy a.2 b.2 with h | h | h
  · exact Or.inr (Or.inl h)
  · rcases Nat.le_total a.1.length b.1.length with hl | hl
    · exact Or.inl (Or.inr ⟨h, hl⟩)
    · exact Or.inr (Or.inr ⟨h.symm, hl⟩)
  · exact Or.inl (Or.inl h)

/-- The sorted match list is ordered by the sort key. -/
theorem sortedMatches_pairwise (K : List String) (norm : String) (ms : Rat) (pm : Bool) :
    (sortedMatches K norm ms pm).Pairwise (fun x y => sortKeyLE x y = true) := by
  unfold sortedMatches
  exact List.sorted_mergeSort sortKeyLE_trans sortKeyLE_total _

/-- The sorted match list carries distinct phrase keys. -/
theorem sortedMatches_keys_nodup (K : List String) (norm : String) (ms : Rat) (pm : Bool) :
    ((sortedMatches K norm ms pm).map Prod.fst).Nodup := by
  have hperm : List.Perm ((sortedMatches K norm ms pm).map Prod.fst)
      ((filteredMatches K norm ms pm).map Prod.fst) := by
    unfold sortedMatches
    exact (List.mergeSort_perm _ _).map _
  rw [hperm.nodup_iff]
  have hsub : List.Sublist ((filteredMatches K norm ms pm).map Prod.fst)
      ((uniqueMatches (allMatches K norm pm)).map Prod.fst) := by
    unfold filteredMatches
    exact (List.filter_sublist _).map _
  exact (uniqueMatches_nodup _).sublist hsub

/-- Entries of the sorted match list come from the collapsed matches and
pass the similarity filter. -/
theorem sortedMatches_mem (K : List String) (norm : String) (ms : Rat) (pm : Bool)
    (x : String × Rat) (h : x ∈ sortedMatches K norm ms pm) :
    x ∈ uniqueMatches (allMatches K norm pm) ∧ ms ≤ x.2 := by
  unfold sortedMatches at h
  have h' := List.mem_mergeSort.mp h
  unfold filteredMatches at h'
  have h2 := List.mem_filter.mp h'
  exact ⟨h2.1, of_decide_eq_true h2.2⟩

/-- Core ranking fact: when the normalized query strictly starts the
indexed phrase `p`, the original of `p` appears in the padded result
list strictly before the original of any phrase `r` whose only score
comes from the similarity strategy. -/
theorem ranked_before_sim_only (kws : List String) (norm : String) (ms : Rat)
    (pm : Bool) (p r : String)
    (hp : p ∈ kws.map normalize_text)
    (hst : pyStarts p norm = true) (hne : p ≠ norm) (hms : ms ≤ 1)
    (hr : r ∈ kws.map normalize_text)
    (hrs : r ∉ (startMatches (kws.map normalize_text) norm).map Prod.fst)
    (hrp : r ∉ (partialScores (kws.map normalize_text) norm).map Prod.fst)
    (hro : originalOf kws r ∈ padResults kws (baseResults kws norm ms pm)) :
    originalOf kws p ∈ padResults kws (baseResults kws norm ms pm) ∧
      (padResults kws (baseResults kws norm ms pm)).indexOf (originalOf kws p) <
        (padResults kws (baseResults kws norm ms pm)).indexOf (originalOf kws r) := by
  have hpu : (p, (1 : Rat)) ∈ uniqueMatches (allMatches (kws.map normalize_text) norm pm) :=
    uniqueMatches_startsWith_one _ norm pm p hp hst hne
  have hpf : (p, (1 : Rat)) ∈ filteredMatches (kws.map normalize_text) norm ms pm := by
    unfold filteredMatches
    exact List.mem_filter.mpr ⟨hpu, decide_eq_true hms⟩
  have hpS : (p, (1 : Rat)) ∈ sortedMatches (kws.map normalize_text) norm ms pm := by
    unfold sortedMatches
    exact List.mem_mergeSort.mpr hpf
  obtain ⟨S₁, S₂, hS⟩ := List.append_of_mem hpS
  have hSfact : ∀ x ∈ sortedMatches (kws.map normalize_text) norm ms pm,
      x.1 ∈ kws.map normalize_text ∧ x.2 ≤ 1 ∧ (x.1 = r → x.2 < 1) := by
    intro x hx
    have hu := (sortedMatches_mem _ norm ms pm x hx).1
    have ha := uniqueMatches_mem _ _ hu
    refine ⟨allMatches_fst_mem _ norm pm x ha, allMatches_snd_le_one _ norm pm x ha, ?_⟩
    intro hx1
    have ha' : (x.1, x.2) ∈ allMatches (kws.map normalize_text) norm pm := ha
    rw [hx1] at ha'
    exact sim_only_score_lt_one _ norm pm r x.2 hrs hrp ha'
  have hmemS₁ : ∀ x ∈ S₁, x ∈ sortedMatches (kws.map normalize_text) norm ms pm := by
    intro x hx
    rw [hS]
    exact List.mem_append.mpr (Or.inl hx)
  have hS₁one : ∀ x ∈ S₁, x.2 = 1 := by
    intro x hx
    have hpw := sortedMatches_pairwise (kws.map normalize_text) norm ms pm
    rw [hS] at hpw
    have hle := (List.pairwise_append.mp hpw).2.2 x hx (p, 1) (List.mem_cons_self _ _)
    have hx2 : x.2 ≤ 1 := (hSfact x (hmemS₁ x hx)).2.1
    simp only [sortKeyLE, Bool.or_eq_true, Bool.and_eq_true, decide_eq_true_eq] at hle
    rcases hle with h1 | ⟨h1, _⟩
    · exact absurd h1 (not_lt.mpr hx2)
    · exact h1
  have hS₁r : ∀ x ∈ S₁, x.1 ≠ r := by
    intro x hx hx1
    have hlt := (hSfact x (hmemS₁ x hx)).2.2 hx1
    rw [hS₁one x hx] at hlt
    exact absurd hlt (lt_irrefl 1)
  have hkeys := sortedMatches_keys_nodup (kws.map normalize_text) norm ms pm
  rw [hS, List.map_append, List.map_cons] at hkeys
  have hpS₁ : p ∉ S₁.map Prod.fst := by
    intro hmem
    rcases List.nodup_append.mp hkeys with ⟨_, _, hdisj⟩
    exact hdisj hmem (List.mem_cons_self _ _)
  have hpr : p ≠ r := by
    intro hpr'
    apply hrs
    rw [← hpr']
    exact List.mem_map.mpr ⟨(p, 1), startMatches_mem_of _ norm p hp hst hne, rfl⟩
  by_cases hlen : S₁.length < 30
  · obtain ⟨k, hk⟩ : ∃ k, 30 - S₁.length = k + 1 := ⟨30 - S₁.length - 1, by omega⟩
    have htl : S₁.take 30 = S₁ := List.take_of_length_le (by omega)
    have htake : (sortedMatches (kws.map normalize_text) norm ms pm).take 30
        = S₁ ++ (p, (1 : Rat)) :: S₂.take k := by
      rw [hS, List.take_append_eq_append_take, htl, hk, List.take_succ_cons]
    have hres : baseResults kws norm ms pm
        = S₁.map (fun pr => originalOf kws pr.1) ++
          originalOf kws p :: ((S₂.take k).map (fun pr => originalOf kws pr.1)) := by
      unfold baseResults
      simp only [MAX_SUGGESTIONS]
      rw [htake, List.map_append, List.map_cons]
    obtain ⟨tail, hout⟩ : ∃ tail, padResults kws (baseResults kws norm ms pm)
        = baseResults kws norm ms pm ++ tail := by
      unfold padResults
      split
      · exact ⟨_, rfl⟩
      · exact ⟨[], (List.append_nil _).symm⟩
    have houtput : padResults kws (baseResults kws norm ms pm)
        = S₁.map (fun pr => originalOf kws pr.1) ++
          originalOf kws p ::
            (((S₂.take k).map (fun pr => originalOf kws pr.1)) ++ tail) := by
      rw [hout, hres, List.append_assoc, List.cons_append]
    have hrnot : originalOf kws r ∉ S₁.map (fun pr => originalOf kws pr.1) := by
      intro hmem
      obtain ⟨x, hx, hfx⟩ := List.mem_map.mp hmem
      exact hS₁r x hx (originalOf_inj kws x.1 r (hSfact x (hmemS₁ x hx)).1 hr hfx)
    have hpnot : originalOf kws p ∉ S₁.map (fun pr => originalOf kws pr.1) := by
      intro hmem
      obtain ⟨x, hx, hfx⟩ := List.mem_map.mp hmem
      apply hpS₁
      exact List.mem_map.mpr ⟨x, hx, originalOf_inj kws x.1 p (hSfact x (hmemS₁ x hx)).1 hp hfx⟩
    have hor : originalOf kws r ≠ originalOf kws p := fun h =>
      hpr (originalOf_inj kws r p hr hp h).symm
    constructor
    · rw [houtput]
      exact List.mem_append.mpr (Or.inr (List.mem_cons_self _ _))
    · rw [houtput, List.indexOf_append_of_not_mem hpnot,
        List.indexOf_append_of_not_mem hrnot]
      apply Nat.add_lt_add_left
      rw [List.indexOf_cons_self, List.indexOf_cons_ne _ hor.symm]
      exact Nat.succ_pos _
  · exfalso
    have htake : (sortedMatches (kws.map normalize_text) norm ms pm).take 30 = S₁.take 30 := by
      rw [hS, List.take_append_eq_append_take]
      have h0 : 30 - S₁.length = 0 := by omega
      rw [h0, List.take_zero, List.append_nil]
    have hres : baseResults kws norm ms pm
        = (S₁.take 30).map (fun pr => originalOf kws pr.1) := by
      unfold baseResults
      simp only [MAX_SUGGESTIONS]
      rw [htake]
    have hreslen : (baseResults kws norm ms pm).length = 30 := by
      rw [hres, List.length_map, List.length_take]
      omega
    have hnotlt : ¬ ((baseResults kws norm ms pm).length < MIN_SUGGESTIONS) := by
      rw [hreslen]
      decide
    have hpad : padResults kws (baseResults kws norm ms pm) = baseResults kws norm ms pm := by
      unfold padResults
      rw [if_neg hnotlt]
    rw [hpad, hres] at hro
    obtain ⟨x, hx, hfx⟩ := List.mem_map.mp hro
    have hxS₁ : x ∈ S₁ := List.take_subset _ _ hx
    exact hS₁r x hxS₁
      (originalOf_inj kws x.1 r (hSfact x (hmemS₁ x hxS₁)).1 hr hfx)

/-- C6: for every query whose normalized form strictly, non-equally
starts an indexed phrase `p`, the merged score of `p` in `check_phrase`
is exactly 1, and `p`'s original is returned ranked strictly before the
original of every phrase whose only score comes from the similarity
strategy. -/
theorem startsWith_match_scores_one_and_ranks_first
    (kws : List String) (q : String) (minSim : Rat) (pm : Bool) (p : String)
    (hp : p ∈ kws.map normalize_text)
    (hst : pyStarts p (normalize_text q) = true)
    (hne : p ≠ normalize_text q)
    (hms : minSim ≤ 1) :
    mergedScore kws q pm p = some 1 ∧
    ∀ r : String, r ∈ kws.map normalize_text →
      r ∉ (startMatches (kws.map normalize_text) (normalize_text q)).map Prod.fst →
      r ∉ (partialScores (kws.map normalize_text) (normalize_text q)).map Prod.fst →
      originalOf kws r ∈ check_phrase kws q minSim pm →
      originalOf kws p ∈ check_phrase kws q minSim pm ∧
        (check_phrase kws q minSim pm).indexOf (originalOf kws p) <
          (check_phrase kws q minSim pm).indexOf (originalOf kws r) := by
  constructor
  · unfold mergedScore
    exact lookup_eq_of_mem _ p 1 (uniqueMatches_nodup _)
      (uniqueMatches_startsWith_one _ (normalize_text q) pm p hp hst hne)
  · intro r hr hrs hrp hro
    exact ranked_before_sim_only kws (normalize_text q) minSim pm p r hp hst hne hms
      hr hrs hrp hro

/-- Concrete instance of the C6 theorem: keywords ["ab cd", "xq"], query
"ab", its normalized form starts "ab cd"; "xq" is matched by similarity
only, and "ab cd" is returned ranked before it. -/
theorem startsWith_match_scores_one_and_ranks_first_witness :
    mergedScore ["ab cd", "xq"] "ab" false "ab cd" = some 1 ∧
    originalOf ["ab cd", "xq"] "ab cd" ∈ check_phrase ["ab cd", "xq"] "ab" 1 false ∧
    (check_phrase ["ab cd", "xq"] "ab" 1 false).indexOf (originalOf ["ab cd", "xq"] "ab cd") <
      (check_phrase ["ab cd", "xq"] "ab" 1 false).indexOf (originalOf ["ab cd", "xq"] "xq") := by
  have hdata1 : "ab".data = ['a', 'b'] := rfl
  have hdata2 : "ab cd".data = ['a', 'b', ' ', 'c', 'd'] := rfl
  have hdata3 : "xq".data = ['x', 'q'] := rfl
  have hl1 : lcsLen "ab".data "ab cd".data = 2 := by
    rw [hdata1, hdata2]
    simp [lcsLen]
  have hl2 : lcsLen "ab".data "xq".data = 0 := by
    rw [hdata1, hdata3]
    simp [lcsLen]
  have hr1 : seqRatio "ab" "ab cd" = mkRat 4 7 := by
    unfold seqRatio
    rw [if_neg (by decide), hl1]
    decide
  have hr2 : seqRatio "ab" "xq" = 0 := by
    unfold seqRatio
    rw [if_neg (by decide), hl2]
    decide
  have hK : ["ab cd", "xq"].map normalize_text = ["ab cd", "xq"] := by decide
  have hnq : normalize_text "ab" = "ab" := by decide
  have hall : allMatches ["ab cd", "xq"] "ab" false =
      [("ab cd", (1 : Rat)), ("ab cd", seqRatio "ab" "ab cd"),
       ("xq", seqRatio "ab" "xq")] := rfl
  have hfil : filteredMatches ["ab cd", "xq"] "ab" 1 false = [("ab cd", (1 : Rat))] := by
    unfold filteredMatches
    rw [hall, hr1, hr2]
    decide
  have hsort : sortedMatches ["ab cd", "xq"] "ab" 1 false = [("ab cd", (1 : Rat))] := by
    unfold sortedMatches
    rw [hfil, List.mergeSort_singleton]
  have hbase : baseResults ["ab cd", "xq"] "ab" 1 false = ["ab cd"] := by
    unfold baseResults
    rw [hK, hsort]
    decide
  have hcp : check_phrase ["ab cd", "xq"] "ab" 1 false = ["ab cd", "xq"] := by
    unfold check_phrase
    rw [hnq, hbase]
    decide
  have h := startsWith_match_scores_one_and_ranks_first ["ab cd", "xq"] "ab" 1 false "ab cd"
    (by decide) (by decide) (by decide) (by decide)
  have h2 := h.2 "xq" (by decide) (by decide) (by decide) (by rw [hcp]; decide)
  exact ⟨h.1, h2.1, h2.2⟩

end GrammarPal
